import Mathlib

/-!
# Verification of the `nosql_group_project` scraping pipeline

Shallow embedding of the extraction pipeline implemented under
`src/webscrapping/` (the politeness scheduler, the fetch/retry loop, the
resumable job planner, the incremental JSON store writer, the person merge
engine, the numeric/date normalizers and the bounded season exploration),
together with proofs and refutations of the pipeline's specified properties.

Conventions used throughout:
* Python strings are modelled as `List Char` (Lean string literals are
  converted with `String.data`, which the kernel evaluates).
* Python `None`-able strings are `Option String`; Python truthiness of a
  string (`None` and `""` are falsy) is `pyFalsy` / `pyOr`.
* Python `dict`s that preserve insertion order are association lists.
* Python's `sorted` (a stable sort) is `List.insertionSort`, which is also
  stable; on every input the two produce the same list.
-/

namespace NosqlPipeline

/-! ## Basic Python-semantics helpers -/

/-- Python truthiness of an optional string: `None` and `""` are falsy. -/
def pyFalsy : Option String → Bool
  | none => true
  | some s => s = ""

/-- Python `a or b` for optional strings. -/
def pyOr (a b : Option String) : Option String :=
  if pyFalsy a then b else a

/-- Python `x or ""` for an optional string (used for sort keys). -/
def orEmpty : Option String → String
  | none => ""
  | some s => s

/-- The ASCII whitespace characters stripped by Python's `str.strip()` /
`str.rstrip()` (the source only ever feeds ASCII). -/
def isPyWS (c : Char) : Bool :=
  c = ' ' || c = '\t' || c = '\n' || c = '\r' || c = '\x0b' || c = '\x0c'

/-- Python `str.rstrip()` on a character list. -/
def rstripChars (s : List Char) : List Char :=
  (s.reverse.dropWhile isPyWS).reverse

/-- Python `str.strip()` on a character list. -/
def stripChars (s : List Char) : List Char :=
  rstripChars (s.dropWhile isPyWS)

/-- Code-point order on characters, as used by Python string comparison. -/
def charLt (c d : Char) : Bool := c.toNat < d.toNat

/-- Lexicographic (code-point) strict order on strings as char lists:
Python's `<` on `str`. -/
def strLt : List Char → List Char → Bool
  | [], [] => false
  | [], _ :: _ => true
  | _ :: _, [] => false
  | c :: cs, d :: ds =>
    if charLt c d then true
    else if charLt d c then false
    else strLt cs ds

/-- Lexicographic (code-point) order on strings as char lists:
Python's `<=` on `str`. -/
def strLe : List Char → List Char → Bool
  | [], _ => true
  | _ :: _, [] => false
  | c :: cs, d :: ds =>
    if charLt c d then true
    else if charLt d c then false
    else strLe cs ds

theorem strLe_total : ∀ a b : List Char, strLe a b = true ∨ strLe b a = true := by
  intro a
  induction a with
  | nil => intro b; left; simp [strLe]
  | cons c cs ih =>
    intro b
    cases b with
    | nil => right; simp [strLe]
    | cons d ds =>
      by_cases h1 : charLt c d
      · left; simp [strLe, h1]
      · by_cases h2 : charLt d c
        · right; simp [strLe, h1, h2]
        · rcases ih ds with h | h
          · left; simp [strLe, h1, h2, h]
          · right; simp [strLe, h1, h2, h]

theorem charLt_asymm {c d : Char} (h : charLt c d = true) : charLt d c = false := by
  simp [charLt] at *
  omega

theorem charLt_or_eq {c d : Char} (h1 : charLt c d = false) (h2 : charLt d c = false) :
    c = d := by
  simp [charLt] at h1 h2
  have : c.toNat = d.toNat := by omega
  exact Char.ext (UInt32.eq_of_val_eq (Fin.eq_of_val_eq this))

theorem strLe_antisymm : ∀ {a b : List Char},
    strLe a b = true → strLe b a = true → a = b := by
  intro a
  induction a with
  | nil =>
    intro b _ hba
    cases b with
    | nil => rfl
    | cons d ds => simp [strLe] at hba
  | cons c cs ih =>
    intro b hab hba
    cases b with
    | nil => simp [strLe] at hab
    | cons d ds =>
      by_cases h1 : charLt c d
      · have := charLt_asymm h1
        simp [strLe, h1, this] at hba
      · by_cases h2 : charLt d c
        · simp [strLe, h1, h2] at hab
        · have hcd : c = d := charLt_or_eq (by simpa using h1) (by simpa using h2)
          subst hcd
          simp [strLe, h1, h2] at hab hba
          rw [ih hab hba]

theorem strLe_trans : ∀ {a b c : List Char},
    strLe a b = true → strLe b c = true → strLe a c = true := by
  intro a
  induction a with
  | nil => intro b c _ _; simp [strLe]
  | cons x xs ih =>
    intro b c hab hbc
    cases b with
    | nil => simp [strLe] at hab
    | cons y ys =>
      cases c with
      | nil => simp [strLe] at hbc
      | cons z zs =>
        by_cases hxy : charLt x y
        · by_cases hyz : charLt y z
          · have : charLt x z = true := by
              simp [charLt] at *; omega
            simp [strLe, this]
          · by_cases hzy : charLt z y
            · simp [strLe, hyz, hzy] at hbc
            · have : y = z := charLt_or_eq (by simpa using hyz) (by simpa using hzy)
              subst this
              simp [strLe, hxy]
        · by_cases hyx : charLt y x
          · simp [strLe, hxy, hyx] at hab
          · have hxyeq : x = y := charLt_or_eq (by simpa using hxy) (by simpa using hyx)
            subst hxyeq
            simp [strLe, hxy] at hab
            by_cases hyz : charLt x z
            · simp [strLe, hyz]
            · by_cases hzy : charLt z x
              · simp [strLe, hyz, hzy] at hbc
              · simp [strLe, hyz, hzy] at hbc ⊢
                exact ih hab hbc

/-! ## Decimal digits (used by id formatting and numeric parsing) -/

/-- Little-endian decimal digits of `n`, with explicit fuel so that the
kernel can evaluate it (`Nat.digits` is not kernel-reducible). -/
def decDigitsAux : ℕ → ℕ → List ℕ
  | 0, _ => []
  | fuel + 1, n => if n = 0 then [] else n % 10 :: decDigitsAux fuel (n / 10)

/-- Big-endian decimal digit list of `n` (empty for `n = 0`). -/
def decDigits (n : ℕ) : List ℕ := (decDigitsAux n n).reverse

/-- Value of a big-endian digit list (`int()` of a digit string). -/
def digitsVal (l : List ℕ) : ℕ := l.foldl (fun a d => 10 * a + d) 0

theorem digitsVal_append (l : List ℕ) (d : ℕ) :
    digitsVal (l ++ [d]) = 10 * digitsVal l + d := by
  simp [digitsVal, List.foldl_append]

theorem digitsVal_decDigitsAux : ∀ (fuel n : ℕ), n ≤ fuel →
    digitsVal (decDigitsAux fuel n).reverse = n := by
  intro fuel
  induction fuel with
  | zero =>
    intro n hn
    interval_cases n
    simp [decDigitsAux, digitsVal]
  | succ f ih =>
    intro n hn
    by_cases h0 : n = 0
    · subst h0; simp [decDigitsAux, digitsVal]
    · have hdiv : n / 10 ≤ f := by omega
      simp only [decDigitsAux, h0, if_false, List.reverse_cons]
      rw [digitsVal_append, ih _ hdiv]
      omega

theorem digitsVal_decDigits (n : ℕ) : digitsVal (decDigits n) = n :=
  digitsVal_decDigitsAux n n le_rfl

/-- A decimal digit rendered as a character. -/
def digitChar (d : ℕ) : Char := Char.ofNat (48 + d)

/-- Numeric value of a digit character (`'0'` ↦ 0, …). -/
def charDigitVal (c : Char) : ℕ := c.toNat - 48

theorem charDigitVal_digitChar {d : ℕ} (hd : d < 10) :
    charDigitVal (digitChar d) = d := by
  interval_cases d <;> rfl

/-- Decimal character rendering of `n` (`str(n)` in Python; `"0"` for 0). -/
def decChars (n : ℕ) : List Char :=
  if n = 0 then ['0'] else (decDigits n).map digitChar

/-- Value of a string of digit characters (`int(s)` for a digit string). -/
def charsVal (l : List Char) : ℕ := l.foldl (fun a c => 10 * a + charDigitVal c) 0

theorem decDigitsAux_lt_ten : ∀ (fuel n : ℕ) (d : ℕ), d ∈ decDigitsAux fuel n → d < 10 := by
  intro fuel
  induction fuel with
  | zero => intro n d h; simp [decDigitsAux] at h
  | succ f ih =>
    intro n d h
    by_cases h0 : n = 0
    · simp [decDigitsAux, h0] at h
    · simp only [decDigitsAux, h0, if_false, List.mem_cons] at h
      rcases h with h | h
      · omega
      · exact ih _ _ h

theorem charsVal_map_digitChar (l : List ℕ) (hl : ∀ d ∈ l, d < 10) :
    charsVal (l.map digitChar) = digitsVal l := by
  induction l using List.reverseRecOn with
  | nil => rfl
  | append_singleton xs d ih =>
    have hxs : ∀ e ∈ xs, e < 10 := fun e he => hl e (by simp [he])
    have hd : d < 10 := hl d (by simp)
    simp only [List.map_append, List.map_cons, List.map_nil]
    rw [digitsVal_append]
    show charsVal (List.map digitChar xs ++ [digitChar d]) = _
    unfold charsVal
    rw [List.foldl_append]
    simp only [List.foldl_cons, List.foldl_nil]
    rw [charDigitVal_digitChar hd]
    have := ih hxs
    unfold charsVal at this
    rw [this]

theorem charsVal_decChars (n : ℕ) : charsVal (decChars n) = n := by
  by_cases h0 : n = 0
  · subst h0; rfl
  · unfold decChars
    rw [if_neg h0, charsVal_map_digitChar _ (fun d hd => decDigitsAux_lt_ten n n d (by
      simpa [decDigits, List.mem_reverse] using hd))]
    exact digitsVal_decDigits n

theorem decChars_all_digits (n : ℕ) : ∀ c ∈ decChars n, c.isDigit = true := by
  intro c hc
  unfold decChars at hc
  by_cases h0 : n = 0
  · simp [h0] at hc; subst hc; rfl
  · rw [if_neg h0] at hc
    simp only [List.mem_map] at hc
    obtain ⟨d, hd, rfl⟩ := hc
    have : d < 10 := decDigitsAux_lt_ten n n d (by simpa [decDigits, List.mem_reverse] using hd)
    interval_cases d <;> rfl

theorem decChars_ne_nil (n : ℕ) : decChars n ≠ [] := by
  unfold decChars
  by_cases h0 : n = 0
  · simp [h0]
  · rw [if_neg h0]
    simp only [ne_eq, List.map_eq_nil_iff]
    unfold decDigits
    simp only [List.reverse_eq_nil_iff]
    cases n with
    | zero => omega
    | succ m => simp [decDigitsAux]

/-! ## `parse_imdb_numeric` (movies_series_functions.py, lines 287–307)

`parse_imdb_numeric(value)`: `None` stays `None`; `int`/`float` are
truncated with `int()`; a string is stripped, the literal `"nan"` (case
insensitive) and digit-free strings give `None`, otherwise the
concatenation of the string's digit characters is read as an integer. -/

/-- A raw value as it appears in the candidate CSV / JSON input: `None`,
an `int`, a `float` (modelled exactly as a rational) or a `str`. -/
inductive PyVal
  | vNone : PyVal
  | vInt : ℤ → PyVal
  | vFloat : ℚ → PyVal
  | vStr : String → PyVal
deriving DecidableEq, Repr

/-- Python `int(q)` on a float: truncation toward zero. -/
def pyTrunc (q : ℚ) : ℤ := q.num.tdiv (q.den : ℤ)

/-- The string branch of `parse_imdb_numeric`. -/
def parse_imdb_numeric_str (s : String) : Option ℤ :=
  let raw := stripChars s.data
  if raw = [] then none
  else if raw.map Char.toLower = "nan".data then none
  else
    let digits := raw.filter Char.isDigit
    if digits = [] then none else some (charsVal digits : ℤ)

/-- Embedding of `parse_imdb_numeric` from
`src/webscrapping/movies_series_functions.py`. -/
def parse_imdb_numeric : PyVal → Option ℤ
  | .vNone => none
  | .vInt n => some n
  | .vFloat q => some (pyTrunc q)
  | .vStr s => parse_imdb_numeric_str s

theorem isPyWS_not_digit {c : Char} (h : isPyWS c = true) : c.isDigit = false := by
  simp only [isPyWS, Bool.or_eq_true, decide_eq_true_eq] at h
  rcases h with ((((h | h) | h) | h) | h) | h <;> subst h <;> rfl

theorem filter_isDigit_dropWhile_isPyWS (l : List Char) :
    (l.dropWhile isPyWS).filter Char.isDigit = l.filter Char.isDigit := by
  induction l with
  | nil => rfl
  | cons c cs ih =>
    by_cases h : isPyWS c = true
    · rw [List.dropWhile_cons_of_pos h, ih, List.filter_cons,
        isPyWS_not_digit h]
      simp
    · rw [List.dropWhile_cons_of_neg (by simp [h])]

theorem filter_isDigit_stripChars (l : List Char) :
    (stripChars l).filter Char.isDigit = l.filter Char.isDigit := by
  unfold stripChars rstripChars
  rw [List.filter_reverse, filter_isDigit_dropWhile_isPyWS, List.filter_reverse,
    filter_isDigit_dropWhile_isPyWS, List.reverse_reverse]

/-- **C10** — The external-identifier normalizer `parse_imdb_numeric` returns
`None` exactly when its input is `None`, a whitespace-only string, the string
`"nan"` in any letter case, or a string containing no digit; for any other
string it returns the integer formed by concatenating all digit characters of
the string in order (so `"tt0903747"` yields `903747`), and for numeric
inputs it returns the value truncated to an integer. -/
theorem parse_imdb_numeric_vStr (s : String) :
    parse_imdb_numeric (.vStr s) = parse_imdb_numeric_str s := rfl

theorem C10_parse_imdb_numeric_spec :
    (∀ s : String,
      (parse_imdb_numeric (.vStr s) = none ↔
        stripChars s.data = [] ∨
        (stripChars s.data).map Char.toLower = "nan".data ∨
        s.data.filter Char.isDigit = []) ∧
      (s.data.filter Char.isDigit ≠ [] →
        (stripChars s.data).map Char.toLower ≠ "nan".data →
        parse_imdb_numeric (.vStr s) =
          some (charsVal (s.data.filter Char.isDigit) : ℤ))) ∧
    parse_imdb_numeric .vNone = none ∧
    (∀ n : ℤ, parse_imdb_numeric (.vInt n) = some n) ∧
    (∀ q : ℚ, parse_imdb_numeric (.vFloat q) = some (pyTrunc q)) ∧
    parse_imdb_numeric (.vStr "tt0903747") = some 903747 := by
  refine ⟨?_, rfl, fun _ => rfl, fun _ => rfl, by decide⟩
  intro s
  have hfilter := filter_isDigit_stripChars s.data
  constructor
  · rw [parse_imdb_numeric_vStr]
    simp only [parse_imdb_numeric_str]
    split_ifs with h1 h2 h3
    · simp [h1]
    · simp [h2, h1]
    · rw [hfilter] at h3
      simp [h3]
    · rw [hfilter] at h3
      simp only [reduceCtorEq, false_iff]
      push_neg
      exact ⟨h1, h2, h3⟩
  · intro hdig hnan
    rw [parse_imdb_numeric_vStr]
    simp only [parse_imdb_numeric_str]
    have h1 : stripChars s.data ≠ [] := by
      intro h
      rw [← hfilter, h] at hdig
      exact hdig rfl
    rw [if_neg h1, if_neg hnan, hfilter, if_neg hdig]

/-- Witness for C10: concrete evaluations through the theorem. -/
theorem C10_witness :
    parse_imdb_numeric (.vStr " NaN ") = none ∧
    parse_imdb_numeric (.vStr "tt0903747") = some 903747 := by
  constructor
  · exact ((C10_parse_imdb_numeric_spec.1 " NaN ").1).mpr (Or.inr (Or.inl (by decide)))
  · exact C10_parse_imdb_numeric_spec.2.2.2.2

/-! ## Bounded season exploration (class_movies_series.py)

`get_series_structure` (lines 1029–1072) falls back to probing seasons
`1, 2, …` with `max_try = 30`, stopping after two consecutive probes
without episodes; `get_total_seasons` (lines 1118–1165) has the same
fallback with `for s in range(1, 30)`, i.e. at most 29 probes.  The
network probe for a season is abstracted as `eps : ℕ → ℕ`, the number of
episodes the page reports for that season. -/

/-- One probing loop: season index `s`, consecutive-empty counter `c`,
remaining iterations `r`, probes made so far `p`, last season seen with
episodes `lw`.  Returns (total probes made, `last_with_eps`). -/
def exploreAux (eps : ℕ → ℕ) : ℕ → ℕ → ℕ → ℕ → ℕ → ℕ × ℕ
  | _, _, 0, p, lw => (p, lw)
  | s, c, r + 1, p, lw =>
    if eps s > 0 then exploreAux eps (s + 1) 0 r (p + 1) s
    else if c + 1 ≥ 2 then (p + 1, lw)
    else exploreAux eps (s + 1) (c + 1) r (p + 1) lw

/-- Number of probes issued by the fallback loop of `get_series_structure`
(`max_try = 30`). -/
def series_structure_fallback_probes (eps : ℕ → ℕ) : ℕ :=
  (exploreAux eps 1 0 30 0 0).1

/-- Number of probes issued by the fallback loop of `get_total_seasons`
(`for s in range(1, 30)`, i.e. 29 iterations). -/
def total_seasons_fallback_probes (eps : ℕ → ℕ) : ℕ :=
  (exploreAux eps 1 0 29 0 0).1

theorem exploreAux_probes_le (eps : ℕ → ℕ) :
    ∀ r s c p lw, (exploreAux eps s c r p lw).1 ≤ p + r := by
  intro r
  induction r with
  | zero => intro s c p lw; simp [exploreAux]
  | succ r ih =>
    intro s c p lw
    simp only [exploreAux]
    split_ifs with h1 h2
    · exact le_trans (ih (s + 1) 0 (p + 1) s) (by omega)
    · omega
    · exact le_trans (ih (s + 1) (c + 1) (p + 1) lw) (by omega)

theorem exploreAux_stops_when_empty (eps : ℕ → ℕ) :
    ∀ r s c p lw, 1 ≤ c → eps s = 0 → (exploreAux eps s c r p lw).1 ≤ p + 1 := by
  intro r
  cases r with
  | zero => intro s c p lw _ _; simp [exploreAux]
  | succ r =>
    intro s c p lw hc hs
    simp only [exploreAux]
    rw [if_neg (by omega), if_pos (by omega)]

theorem exploreAux_two_empty (eps : ℕ → ℕ) :
    ∀ r s c p lw k, s ≤ k → eps k = 0 → eps (k + 1) = 0 →
      (exploreAux eps s c r p lw).1 ≤ p + (k + 2 - s) := by
  intro r
  induction r with
  | zero => intro s c p lw k _ _ _; simp [exploreAux]
  | succ r ih =>
    intro s c p lw k hsk hk hk1
    by_cases hsk2 : s = k
    · subst hsk2
      simp only [exploreAux, hk]
      rw [if_neg (by omega)]
      split_ifs with h2
      · omega
      · have := exploreAux_stops_when_empty eps r (s + 1) (c + 1) (p + 1) lw
          (by omega) hk1
        omega
    · have hslt : s < k := lt_of_le_of_ne hsk hsk2
      simp only [exploreAux]
      split_ifs with h1 h2
      · have := ih (s + 1) 0 (p + 1) s k (by omega) hk hk1
        omega
      · omega
      · have := ih (s + 1) (c + 1) (p + 1) lw k (by omega) hk hk1
        omega

/-- **C8** — The fallback season exploration always terminates (it is a
structurally bounded loop): both fallback loops issue at most 30 probes for
any input page, and as soon as two consecutive probes return no episodes
(seasons `k` and `k+1`), no probe beyond season `k+1` is issued. -/
theorem C8_bounded_exploration (eps : ℕ → ℕ) :
    series_structure_fallback_probes eps ≤ 30 ∧
    total_seasons_fallback_probes eps ≤ 29 ∧
    (∀ k, 1 ≤ k → eps k = 0 → eps (k + 1) = 0 →
      series_structure_fallback_probes eps ≤ k + 1 ∧
      total_seasons_fallback_probes eps ≤ k + 1) := by
  refine ⟨?_, ?_, ?_⟩
  · simpa using exploreAux_probes_le eps 30 1 0 0 0
  · simpa using exploreAux_probes_le eps 29 1 0 0 0
  · intro k hkpos hk hk1
    constructor
    · have := exploreAux_two_empty eps 30 1 0 0 0 k hkpos hk hk1
      unfold series_structure_fallback_probes
      omega
    · have := exploreAux_two_empty eps 29 1 0 0 0 k hkpos hk hk1
      unfold total_seasons_fallback_probes
      omega

/-- Witness for C8: a page with no episodes at all is probed exactly twice,
within the bound the theorem gives. -/
theorem C8_witness :
    series_structure_fallback_probes (fun _ => 0) ≤ 2 ∧
    series_structure_fallback_probes (fun _ => 0) = 2 := by
  refine ⟨?_, by decide⟩
  exact ((C8_bounded_exploration (fun _ => 0)).2.2 1 le_rfl rfl rfl).1

/-! ## Fetch/retry loop (`MovieImdb.get_content`, class_movies_series.py
lines 123–163, and `soup`, people_functions.py lines 64–107)

Both functions run `for attempt in range(5)`, call
`polite_request_pause()` first in every iteration, classify the response
(throttled / blocked / empty-or-invalid / success) and, after the loop,
`raise RuntimeError(...)`.  The network is abstracted as an oracle giving
each attempt's classified outcome. -/

/-- Classified outcome of one HTTP attempt, mirroring the branches of the
retry loop. -/
inductive AttemptOutcome
  | throttled
  | blocked
  | invalid
  | success
deriving DecidableEq, Repr

/-- Result of the whole fetch: a parsed document (obtained at some attempt
index) or the `raise RuntimeError` that follows the exhausted loop.  The
code has no typed error value: the only non-success outcome is the raised
exception. -/
inductive FetchResult
  | ok : ℕ → FetchResult
  | raisedRuntimeError : FetchResult
deriving DecidableEq, Repr

/-- True exactly on the raised-exception outcome. -/
def isRaisedException : FetchResult → Bool
  | .raisedRuntimeError => true
  | .ok _ => false

/-- Observable events of the loop: a politeness-scheduler call, or an
outbound HTTP attempt. -/
inductive FetchEvent
  | politePause
  | httpAttempt
deriving DecidableEq, Repr

/-- The retry loop: attempt index and remaining iterations, returning the
result together with the event trace. -/
def fetchAux (oracle : ℕ → AttemptOutcome) : ℕ → ℕ → FetchResult × List FetchEvent
  | _, 0 => (.raisedRuntimeError, [])
  | attempt, r + 1 =>
    match oracle attempt with
    | .success => (.ok attempt, [.politePause, .httpAttempt])
    | _ =>
      let rest := fetchAux oracle (attempt + 1) r
      (rest.1, .politePause :: .httpAttempt :: rest.2)

/-- Embedding of `MovieImdb.get_content` / `soup`: 5 attempts starting at
attempt 0. -/
def get_content (oracle : ℕ → AttemptOutcome) : FetchResult × List FetchEvent :=
  fetchAux oracle 0 5

/-- Event trace consisting of `n` blocks `politePause, httpAttempt`. -/
def politePairs : ℕ → List FetchEvent
  | 0 => []
  | n + 1 => .politePause :: .httpAttempt :: politePairs n

theorem fetchAux_trace_shape (oracle : ℕ → AttemptOutcome) :
    ∀ r a, ∃ n ≤ r, (fetchAux oracle a r).2 = politePairs n := by
  intro r
  induction r with
  | zero => intro a; exact ⟨0, le_rfl, rfl⟩
  | succ r ih =>
    intro a
    simp only [fetchAux]
    cases h : oracle a with
    | success => exact ⟨1, by omega, rfl⟩
    | throttled =>
      obtain ⟨n, hn, hshape⟩ := ih (a + 1)
      exact ⟨n + 1, by omega, by simp [politePairs, hshape]⟩
    | blocked =>
      obtain ⟨n, hn, hshape⟩ := ih (a + 1)
      exact ⟨n + 1, by omega, by simp [politePairs, hshape]⟩
    | invalid =>
      obtain ⟨n, hn, hshape⟩ := ih (a + 1)
      exact ⟨n + 1, by omega, by simp [politePairs, hshape]⟩

theorem politePairs_count (n : ℕ) :
    (politePairs n).count FetchEvent.httpAttempt = n := by
  induction n with
  | zero => rfl
  | succ n ih => simp [politePairs, List.count_cons, ih]

theorem politePairs_before : ∀ (n i : ℕ),
    (politePairs n).get? i = some .httpAttempt →
    ∃ j, i = j + 1 ∧ (politePairs n).get? j = some .politePause := by
  intro n
  induction n with
  | zero => intro i h; simp [politePairs] at h
  | succ n ih =>
    intro i h
    match i with
    | 0 => simp [politePairs] at h
    | 1 => exact ⟨0, rfl, rfl⟩
    | i + 2 =>
      have h2 : (politePairs n).get? i = some .httpAttempt := h
      obtain ⟨j, hj, hget⟩ := ih i h2
      exact ⟨j + 2, by omega, hget⟩

theorem fetchAux_exhausted (oracle : ℕ → AttemptOutcome) :
    ∀ r a, (∀ k, a ≤ k → k < a + r → oracle k ≠ .success) →
      (fetchAux oracle a r).1 = .raisedRuntimeError := by
  intro r
  induction r with
  | zero => intro a _; rfl
  | succ r ih =>
    intro a hfail
    simp only [fetchAux]
    cases h : oracle a with
    | success => exact absurd h (hfail a le_rfl (by omega))
    | throttled => exact ih (a + 1) (fun k hk1 hk2 => hfail k (by omega) (by omega))
    | blocked => exact ih (a + 1) (fun k hk1 hk2 => hfail k (by omega) (by omega))
    | invalid => exact ih (a + 1) (fun k hk1 hk2 => hfail k (by omega) (by omega))

/-- **C4 (amended)** — For every URL (every outcome oracle) the fetch makes
at most 5 HTTP attempts, every attempt is immediately preceded by a
politeness-scheduler call, and exhausting all attempts raises a
`RuntimeError` — the terminal outcome is a raised exception, not a typed
`FetchError` value. -/
theorem C4_fetch_retry_amended (oracle : ℕ → AttemptOutcome) :
    (get_content oracle).2.count FetchEvent.httpAttempt ≤ 5 ∧
    (∀ i, (get_content oracle).2.get? i = some .httpAttempt →
      ∃ j, i = j + 1 ∧ (get_content oracle).2.get? j = some .politePause) ∧
    ((∀ k, k < 5 → oracle k ≠ .success) →
      (get_content oracle).1 = .raisedRuntimeError) := by
  obtain ⟨n, hn, hshape⟩ := fetchAux_trace_shape oracle 5 0
  refine ⟨?_, ?_, ?_⟩
  · unfold get_content
    rw [hshape, politePairs_count]
    exact hn
  · intro i hi
    unfold get_content at hi ⊢
    rw [hshape] at hi ⊢
    exact politePairs_before n i hi
  · intro hfail
    exact fetchAux_exhausted oracle 5 0 (fun k hk1 hk2 => hfail k (by omega))

/-- **C4 counterexample** — concrete refutation of the claim as stated: on a
URL whose five attempts are all throttled, the fetch terminates by raising
`RuntimeError`; it does not return a typed `FetchError` result. -/
theorem C4_counterexample :
    isRaisedException (get_content (fun _ => .throttled)).1 = true := rfl

/-- Witness for C4 (amended): the exhaustion hypothesis discharged on the
all-throttled oracle. -/
theorem C4_witness :
    (get_content (fun _ => AttemptOutcome.throttled)).1 = .raisedRuntimeError :=
  (C4_fetch_retry_amended (fun _ => .throttled)).2.2 (fun k _ => by decide)

/-! ## Incremental store writer (movies_series_functions.py lines 215–284;
persist_people in people_functions.py lines 350–373 has the same body)

`initialize_output` writes `"[\n"` and resets the module flag
`first_persisted_item`; `persist_movies` appends each buffered record as
`"    " + json.dumps(record, indent=4).replace("\n", "\n    ")`, prefixed
with `",\n"` for every record but the first ever written, returns the batch
size and clears the caller's buffer; `ensure_json_array_closed` (the repair
step) appends `"\n]\n"` to the right-stripped content unless it already
ends in `"]"`.  Records are modelled by their serialized text (a char
list); the file is its char-list content. -/

/-- `serialized.replace("\n", "\n    ")`. -/
def replaceNl : List Char → List Char
  | [] => []
  | c :: cs =>
    if c = '\n' then '\n' :: ' ' :: ' ' :: ' ' :: ' ' :: replaceNl cs
    else c :: replaceNl cs

/-- `"    " + serialized.replace("\n", "\n    ")`. -/
def indent4 (r : List Char) : List Char :=
  ' ' :: ' ' :: ' ' :: ' ' :: replaceNl r

/-- Writer-side state: the file content and the
`first_persisted_item` flag. -/
structure StoreState where
  content : List Char
  firstItem : Bool
deriving DecidableEq, Repr

/-- `initialize_output`: file becomes `"[\n"`, flag reset. -/
def initialize_output : StoreState :=
  { content := ['[', '\n'], firstItem := true }

/-- One iteration of the write loop in `persist_movies`. -/
def writeRecord (st : StoreState) (r : List Char) : StoreState :=
  if st.firstItem then { content := st.content ++ indent4 r, firstItem := false }
  else { content := st.content ++ ',' :: '\n' :: indent4 r, firstItem := st.firstItem }

/-- `persist_movies(buffer, path)`: returns (return value, buffer after the
call, new writer state).  An empty buffer returns 0 before touching
anything; otherwise all records are appended, the buffer is cleared and its
former length returned. -/
def persist_movies (buffer : List (List Char)) (st : StoreState) :
    ℕ × List (List Char) × StoreState :=
  if buffer = [] then (0, buffer, st)
  else (buffer.length, [], buffer.foldl writeRecord st)

/-- `persist_people` (people_functions.py) has the identical body, acting on
its own module flag; it is the same state transformer. -/
def persist_people : List (List Char) → StoreState → ℕ × List (List Char) × StoreState :=
  persist_movies

/-- `ensure_json_array_closed(path)`: the repair step run at startup. -/
def ensure_json_array_closed (content : List Char) : List Char :=
  let stripped := rstripChars content
  if stripped = [] then content
  else if stripped.getLast? = some ']' then content
  else stripped ++ ['\n', ']', '\n']

/-- The separated tail blocks `",\n" + indent4 r` of an array body. -/
def sepRecs (rs : List (List Char)) : List Char :=
  (rs.map (fun r => ',' :: '\n' :: indent4 r)).flatten

/-- The body of the array as written by the writer: first record without a
separator, the rest each preceded by `",\n"`. -/
def arrayBody : List (List Char) → List Char
  | [] => []
  | r :: rest => indent4 r ++ sepRecs rest

/-- The canonical fully closed JSON array holding exactly `rs`. -/
def closedArray (rs : List (List Char)) : List Char :=
  if rs = [] then ['[', '\n', ']', '\n']
  else '[' :: '\n' :: (arrayBody rs ++ ['\n', ']', '\n'])

/-- Run `initialize_output` followed by one `persist_movies` call per batch:
the file state at an arbitrary append boundary (where a crash may truncate
the run). -/
def appendRun (batches : List (List (List Char))) : StoreState :=
  batches.foldl (fun st b => (persist_movies b st).2.2) initialize_output

/-- A serialized record as produced by `json.dumps(dict, indent=4)`: it is
nonempty and ends in `"}"` — in particular its last character is neither
whitespace nor `"]"`. -/
def goodRecord (r : List Char) : Prop :=
  ∃ c, r.getLast? = some c ∧ isPyWS c = false ∧ c ≠ ']'

theorem foldl_writeRecord_false (rs : List (List Char)) :
    ∀ c, rs.foldl writeRecord { content := c, firstItem := false } =
      { content := c ++ sepRecs rs, firstItem := false } := by
  induction rs with
  | nil => intro c; simp [sepRecs]
  | cons r rest ih =>
    intro c
    simp only [List.foldl_cons, writeRecord]
    rw [if_neg (by simp)]
    rw [ih]
    simp [sepRecs, List.append_assoc]

theorem foldl_writeRecord_true (rs : List (List Char)) (hrs : rs ≠ []) (c : List Char) :
    rs.foldl writeRecord { content := c, firstItem := true } =
      { content := c ++ arrayBody rs, firstItem := false } := by
  match rs with
  | r :: rest =>
    simp only [List.foldl_cons, writeRecord, if_pos]
    rw [foldl_writeRecord_false]
    simp [arrayBody, List.append_assoc]

theorem sepRecs_append (a b : List (List Char)) :
    sepRecs (a ++ b) = sepRecs a ++ sepRecs b := by
  simp [sepRecs]

theorem arrayBody_append (a b : List (List Char)) (ha : a ≠ []) :
    arrayBody (a ++ b) = arrayBody a ++ sepRecs b := by
  match a with
  | r :: rest =>
    simp [arrayBody, sepRecs_append, List.append_assoc]

theorem persist_state_empty (st : StoreState) :
    (persist_movies [] st).2.2 = st := rfl

theorem persist_state_nonempty (b : List (List Char)) (hb : b ≠ []) (st : StoreState) :
    (persist_movies b st).2.2 = b.foldl writeRecord st := by
  unfold persist_movies
  rw [if_neg hb]

/-- Running batches from a non-first state appends all their separated
blocks. -/
theorem runFrom_false (batches : List (List (List Char))) :
    ∀ c, batches.foldl (fun st b => (persist_movies b st).2.2)
        { content := c, firstItem := false } =
      { content := c ++ sepRecs batches.flatten, firstItem := false } := by
  induction batches with
  | nil => intro c; simp [sepRecs]
  | cons b bs ih =>
    intro c
    simp only [List.foldl_cons]
    by_cases hb : b = []
    · subst hb
      rw [persist_state_empty, ih]
      simp
    · rw [persist_state_nonempty b hb, foldl_writeRecord_false, ih,
        List.flatten_cons, sepRecs_append]
      simp [List.append_assoc]

theorem runFrom_true (batches : List (List (List Char))) :
    ∀ c, batches.foldl (fun st b => (persist_movies b st).2.2)
        { content := c, firstItem := true } =
      if batches.flatten = [] then { content := c, firstItem := true }
      else { content := c ++ arrayBody batches.flatten, firstItem := false } := by
  induction batches with
  | nil => intro c; simp
  | cons b bs ih =>
    intro c
    simp only [List.foldl_cons]
    by_cases hb : b = []
    · subst hb
      rw [persist_state_empty, ih]
      simp
    · rw [persist_state_nonempty b hb, foldl_writeRecord_true b hb, runFrom_false,
        List.flatten_cons]
      rw [if_neg (by simp [hb])]
      rw [arrayBody_append b bs.flatten hb]
      simp [List.append_assoc]

theorem replaceNl_append (a b : List Char) :
    replaceNl (a ++ b) = replaceNl a ++ replaceNl b := by
  induction a with
  | nil => rfl
  | cons c cs ih =>
    by_cases h : c = '\n'
    · simp [replaceNl, h, ih]
    · simp [replaceNl, h, ih]

theorem getLast?_replaceNl (r : List Char) (c : Char) (hlast : r.getLast? = some c)
    (hc : c ≠ '\n') : (replaceNl r).getLast? = some c := by
  induction r using List.reverseRecOn with
  | nil => simp at hlast
  | append_singleton xs d _ =>
    rw [List.getLast?_append] at hlast
    simp only [List.getLast?_singleton, Option.or_some, Option.some.injEq] at hlast
    subst hlast
    rw [replaceNl_append, List.getLast?_append]
    simp [replaceNl, hc]

theorem getLast?_indent4 (r : List Char) (c : Char) (hlast : r.getLast? = some c)
    (hc : c ≠ '\n') : (indent4 r).getLast? = some c := by
  unfold indent4
  show (' ' :: ' ' :: ' ' :: ' ' :: replaceNl r).getLast? = some c
  rw [show (' ' :: ' ' :: ' ' :: ' ' :: replaceNl r) =
      [' ', ' ', ' ', ' '] ++ replaceNl r by rfl]
  rw [List.getLast?_append, getLast?_replaceNl r c hlast hc]
  rfl

theorem getLast?_sepRecs (rs : List (List Char)) (hrs : rs ≠ [])
    (hgood : ∀ r ∈ rs, goodRecord r) :
    ∃ c, (sepRecs rs).getLast? = some c ∧ isPyWS c = false ∧ c ≠ ']' := by
  induction rs with
  | nil => exact absurd rfl hrs
  | cons r rest ih =>
    by_cases hrest : rest = []
    · subst hrest
      obtain ⟨c, hlast, hws, hbr⟩ := hgood r (by simp)
      refine ⟨c, ?_, hws, hbr⟩
      have hnl : c ≠ '\n' := by
        intro h; subst h; simp [isPyWS] at hws
      simp only [sepRecs, List.map_cons, List.map_nil, List.flatten_cons,
        List.flatten_nil, List.append_nil]
      rw [show (',' :: '\n' :: indent4 r) = [',', '\n'] ++ indent4 r by rfl]
      rw [List.getLast?_append, getLast?_indent4 r c hlast hnl]
      rfl
    · obtain ⟨c, hlast, hws, hbr⟩ := ih hrest (fun x hx => hgood x (by simp [hx]))
      refine ⟨c, ?_, hws, hbr⟩
      rw [show sepRecs (r :: rest) = (',' :: '\n' :: indent4 r) ++ sepRecs rest by
        simp [sepRecs]]
      rw [List.getLast?_append, hlast]
      rfl

theorem getLast?_arrayBody (rs : List (List Char)) (hrs : rs ≠ [])
    (hgood : ∀ r ∈ rs, goodRecord r) :
    ∃ c, (arrayBody rs).getLast? = some c ∧ isPyWS c = false ∧ c ≠ ']' := by
  match rs with
  | r :: rest =>
    by_cases hrest : rest = []
    · subst hrest
      obtain ⟨c, hlast, hws, hbr⟩ := hgood r (by simp)
      have hnl : c ≠ '\n' := by
        intro h; subst h; simp [isPyWS] at hws
      exact ⟨c, by
        simp only [arrayBody, sepRecs, List.map_nil, List.flatten_nil, List.append_nil]
        exact getLast?_indent4 r c hlast hnl, hws, hbr⟩
    · obtain ⟨c, hlast, hws, hbr⟩ :=
        getLast?_sepRecs rest hrest (fun x hx => hgood x (by simp [hx]))
      refine ⟨c, ?_, hws, hbr⟩
      simp only [arrayBody]
      rw [List.getLast?_append, hlast]
      rfl

theorem rstripChars_eq_self (l : List Char) (c : Char) (hlast : l.getLast? = some c)
    (hc : isPyWS c = false) : rstripChars l = l := by
  have hrev : l.reverse.head? = some c := by
    rw [List.head?_reverse]; exact hlast
  unfold rstripChars
  match hl : l.reverse, hrev with
  | c :: t, _ =>
    have : l.reverse.head? = some c := by rw [hl]; rfl
    rw [this] at hrev
    cases hrev
    rw [List.dropWhile_cons_of_neg (by simp [hc])]
    rw [← hl, List.reverse_reverse]

theorem rstripChars_close (x : List Char) :
    rstripChars (x ++ ['\n', ']', '\n']) = x ++ ['\n', ']'] := by
  unfold rstripChars
  rw [List.reverse_append]
  rw [show (['\n', ']', '\n'] : List Char).reverse = ['\n', ']', '\n'] from rfl]
  rw [show (['\n', ']', '\n'] : List Char) ++ x.reverse =
    '\n' :: ']' :: '\n' :: x.reverse from rfl]
  rw [List.dropWhile_cons_of_pos (by decide), List.dropWhile_cons_of_neg (by decide)]
  simp

/-- **C2** — After `initialize_output` and any sequence of `persist_movies`
batches (records serialized by `json.dumps`, so each ends in a non-space
character other than `"]"`), truncating the file at that append boundary
and running `ensure_json_array_closed` yields exactly the canonical fully
closed JSON array of all records appended so far; and the repair step is
idempotent on every file content, so a second run changes nothing and no
record is lost. -/
theorem C2_store_repair (batches : List (List (List Char)))
    (hgood : ∀ r ∈ batches.flatten, goodRecord r) :
    ensure_json_array_closed (appendRun batches).content =
      closedArray batches.flatten ∧
    (∀ content : List Char,
      ensure_json_array_closed (ensure_json_array_closed content) =
        ensure_json_array_closed content) := by
  constructor
  · unfold appendRun initialize_output
    rw [runFrom_true]
    by_cases hj : batches.flatten = []
    · rw [if_pos hj, hj]
      decide
    · rw [if_neg hj]
      obtain ⟨c, hlast, hws, hbr⟩ := getLast?_arrayBody batches.flatten hj hgood
      have hcontent : ((['[', '\n'] : List Char) ++ arrayBody batches.flatten).getLast? =
          some c := by
        rw [List.getLast?_append, hlast]; rfl
      have hstrip := rstripChars_eq_self _ c hcontent hws
      unfold ensure_json_array_closed
      rw [hstrip]
      rw [if_neg (by simp), if_neg (by
        rw [List.getLast?_append, hlast]
        simp only [Option.or_some, Option.some.injEq]
        exact hbr)]
      rw [closedArray, if_neg hj]
      simp
  · intro content
    by_cases h1 : rstripChars content = []
    · have heq : ensure_json_array_closed content = content := by
        unfold ensure_json_array_closed
        rw [if_pos h1]
      rw [heq]
      exact heq
    · by_cases h2 : (rstripChars content).getLast? = some ']'
      · have heq : ensure_json_array_closed content = content := by
          unfold ensure_json_array_closed
          rw [if_neg h1, if_pos h2]
        rw [heq]
        exact heq
      · have heq : ensure_json_array_closed content =
            rstripChars content ++ ['\n', ']', '\n'] := by
          unfold ensure_json_array_closed
          rw [if_neg h1, if_neg h2]
        rw [heq]
        unfold ensure_json_array_closed
        rw [rstripChars_close]
        rw [if_neg (by simp), if_pos (by rw [List.getLast?_append]; rfl)]

/-- Witness for C2: two batches of one record each, repaired into the
canonical closed two-record array. -/
theorem C2_witness :
    ensure_json_array_closed (appendRun [["\"a\": 1".data], ["\"b\": 2".data]]).content =
      closedArray ["\"a\": 1".data, "\"b\": 2".data] := by
  have hgood : ∀ r ∈ ([["\"a\": 1".data], ["\"b\": 2".data]] :
      List (List (List Char))).flatten, goodRecord r := by
    intro r hr
    have hcases : r = "\"a\": 1".data ∨ r = "\"b\": 2".data := by simpa using hr
    rcases hcases with rfl | rfl
    · exact ⟨'1', by decide, by decide, by decide⟩
    · exact ⟨'2', by decide, by decide, by decide⟩
  simpa using (C2_store_repair [["\"a\": 1".data], ["\"b\": 2".data]] hgood).1

/-- **C9** — `persist_movies` (and the identical `persist_people`) returns 0
on an empty buffer leaving the file content, the first-item flag and the
buffer unchanged; on a non-empty buffer it returns the number of buffered
records and clears the caller's buffer in place. -/
theorem C9_persist_frame (buffer : List (List Char)) (st : StoreState) :
    (buffer = [] →
      persist_movies buffer st = (0, buffer, st) ∧
      persist_people buffer st = (0, buffer, st)) ∧
    (buffer ≠ [] →
      (persist_movies buffer st).1 = buffer.length ∧
      (persist_movies buffer st).2.1 = [] ∧
      (persist_people buffer st).1 = buffer.length ∧
      (persist_people buffer st).2.1 = []) := by
  constructor
  · intro hb
    subst hb
    exact ⟨rfl, rfl⟩
  · intro hb
    unfold persist_people persist_movies
    rw [if_neg hb]
    exact ⟨rfl, rfl, rfl, rfl⟩

/-- Witness for C9: both branches at concrete inputs. -/
theorem C9_witness :
    persist_movies [] initialize_output = (0, [], initialize_output) ∧
    (persist_movies ["\"a\": 1".data] initialize_output).1 = 1 := by
  constructor
  · exact ((C9_persist_frame [] initialize_output).1 rfl).1
  · exact ((C9_persist_frame ["\"a\": 1".data] initialize_output).2 (by decide)).1

/-! ## Internal identifier assignment (class_movies_series.py lines
1320–1390; people_functions.py `load_existing_people` lines 529–572;
class_people.py lines 174–190)

Movie ids are `f"ms{n:012d}"`; continuation parses ids of the form
`"ms" + digits` from the existing store and restarts at `max + 1` (or `1`
when none parse).  Person ids are `f"p{n:012d}"` with the same
continuation logic. -/

/-- Parse an existing movie id: `raw.startswith("ms")` and
`raw[2:].isdigit()`. -/
def parse_ms_id : List Char → Option ℕ
  | c1 :: c2 :: tail =>
    if c1 = 'm' ∧ c2 = 's' ∧ tail ≠ [] ∧ tail.all Char.isDigit then
      some (charsVal tail)
    else none
  | _ => none

/-- Parse an existing person id: `raw.startswith("p")` and
`raw[1:].isdigit()`. -/
def parse_p_id : List Char → Option ℕ
  | c1 :: tail =>
    if c1 = 'p' ∧ tail ≠ [] ∧ tail.all Char.isDigit then some (charsVal tail)
    else none
  | _ => none

/-- `f"{n:012d}"`: decimal rendering left-padded with zeros to width 12. -/
def pad12 (n : ℕ) : List Char :=
  List.replicate (12 - (decChars n).length) '0' ++ decChars n

/-- `f"ms{n:012d}"`. -/
def ms_id_string (n : ℕ) : List Char := 'm' :: 's' :: pad12 n

/-- `f"p{n:012d}"`. -/
def p_id_string (n : ℕ) : List Char := 'p' :: pad12 n

/-- `max(existing_numeric_ids) + 1 if existing_numeric_ids else 1`
(class_movies_series.py line 1368), applied to the `_id` strings found in
the store. -/
def next_numeric_id (ids : List (List Char)) : ℕ :=
  let nums := ids.filterMap parse_ms_id
  if nums = [] then 1 else nums.foldl max 0 + 1

/-- `max_numeric + 1 if max_numeric else 1` from `load_existing_people`,
where `max_numeric` accumulates `max` over every parsed `"p…"` id
starting from 0. -/
def next_person_numeric_id (ids : List (List Char)) : ℕ :=
  let m := (ids.filterMap parse_p_id).foldl max 0
  if m = 0 then 1 else m + 1

/-- The ids assigned to the `count` records persisted by one continuation
run, in order: `ms{next}`, `ms{next+1}`, …. -/
def assign_ms_ids (next count : ℕ) : List (List Char) :=
  (List.range count).map (fun i => ms_id_string (next + i))

theorem charsVal_replicate_zero (k : ℕ) (l : List Char) :
    charsVal (List.replicate k '0' ++ l) = charsVal l := by
  induction k with
  | zero => simp
  | succ k ih =>
    rw [List.replicate_succ, List.cons_append]
    show charsVal ('0' :: (List.replicate k '0' ++ l)) = charsVal l
    unfold charsVal at ih ⊢
    simp only [List.foldl_cons]
    rw [show (10 * 0 + charDigitVal '0') = 0 from rfl]
    exact ih

theorem pad12_ne_nil (n : ℕ) : pad12 n ≠ [] := by
  unfold pad12
  simp [decChars_ne_nil n]

theorem pad12_all_digits (n : ℕ) : (pad12 n).all Char.isDigit = true := by
  unfold pad12
  rw [List.all_append]
  refine Bool.and_eq_true_iff.mpr ⟨?_, ?_⟩
  · rw [List.all_eq_true]
    intro c hc
    rw [List.eq_of_mem_replicate hc]
    rfl
  · rw [List.all_eq_true]
    exact decChars_all_digits n

theorem charsVal_pad12 (n : ℕ) : charsVal (pad12 n) = n := by
  unfold pad12
  rw [charsVal_replicate_zero, charsVal_decChars]

theorem parse_ms_id_roundtrip (n : ℕ) : parse_ms_id (ms_id_string n) = some n := by
  show parse_ms_id ('m' :: 's' :: pad12 n) = some n
  simp only [parse_ms_id]
  rw [if_pos ⟨trivial, trivial, pad12_ne_nil n, pad12_all_digits n⟩, charsVal_pad12]

theorem parse_p_id_roundtrip (n : ℕ) : parse_p_id (p_id_string n) = some n := by
  show parse_p_id ('p' :: pad12 n) = some n
  simp only [parse_p_id]
  rw [if_pos ⟨trivial, pad12_ne_nil n, pad12_all_digits n⟩, charsVal_pad12]

theorem ms_id_string_injective {n m : ℕ} (h : ms_id_string n = ms_id_string m) :
    n = m := by
  have h1 := parse_ms_id_roundtrip n
  rw [h, parse_ms_id_roundtrip m] at h1
  exact (Option.some.injEq _ _).mp h1.symm

theorem foldl_max_init_le (l : List ℕ) : ∀ a : ℕ, a ≤ l.foldl max a := by
  induction l with
  | nil => intro a; exact le_rfl
  | cons x xs ih =>
    intro a
    calc a ≤ max a x := le_max_left a x
      _ ≤ xs.foldl max (max a x) := ih (max a x)

theorem foldl_max_ge (l : List ℕ) : ∀ (a : ℕ) (v : ℕ), v ∈ l → v ≤ l.foldl max a := by
  induction l with
  | nil => intro a v hv; simp at hv
  | cons x xs ih =>
    intro a v hv
    rcases List.mem_cons.mp hv with rfl | hv
    · calc v ≤ max a v := le_max_right a v
        _ ≤ xs.foldl max (max a v) := foldl_max_init_le xs (max a v)
    · exact ih (max a x) v hv

theorem mem_lt_next_numeric_id (ids : List (List Char)) (v : ℕ)
    (hv : v ∈ ids.filterMap parse_ms_id) : v < next_numeric_id ids := by
  unfold next_numeric_id
  have hne : ids.filterMap parse_ms_id ≠ [] := by
    intro h; rw [h] at hv; simp at hv
  rw [if_neg hne]
  have := foldl_max_ge (ids.filterMap parse_ms_id) 0 v hv
  omega

theorem mem_lt_next_person_numeric_id (ids : List (List Char)) (v : ℕ)
    (hv : v ∈ ids.filterMap parse_p_id) : v < next_person_numeric_id ids := by
  unfold next_person_numeric_id
  have hle := foldl_max_ge (ids.filterMap parse_p_id) 0 v hv
  by_cases hm : (ids.filterMap parse_p_id).foldl max 0 = 0
  · rw [if_pos hm]
    omega
  · rw [if_neg hm]
    omega

/-! ## Person merge engine (people_functions.py lines 486–527)

`merge_person_entry(target, incoming)` fills empty scalar fields from the
incoming payload, replaces the role list by `sorted(set(target_roles) ∪
set(incoming_roles))`, and rebuilds the movie list through an
insertion-ordered dict keyed by `movie.get("_id") or movie.get("title")`
(target entries overwrite same-key predecessors; incoming entries are added
only when their key is absent), finally sorted by
`(m.get("title") or "", m.get("_id") or "")`.  Python's `sorted` is a
stable sort, as is `List.insertionSort`; stable sorts agree on every
input. -/

theorem strLt_iff (a : List Char) : ∀ b, strLt a b = (strLe a b && !(strLe b a)) := by
  induction a with
  | nil =>
    intro b
    cases b with
    | nil => rfl
    | cons d ds => rfl
  | cons c cs ih =>
    intro b
    cases b with
    | nil => rfl
    | cons d ds =>
      by_cases h1 : charLt c d
      · have h2 := charLt_asymm h1
        simp [strLt, strLe, h1, h2]
      · by_cases h2 : charLt d c
        · simp [strLt, strLe, h1, h2]
        · simp [strLt, strLe, h1, h2, ih ds]

theorem strLt_false_false_eq {a b : List Char} (h1 : strLt a b = false)
    (h2 : strLt b a = false) : a = b := by
  rw [strLt_iff] at h1 h2
  rcases strLe_total a b with hle | hle
  · rw [hle] at h1
    simp at h1
    exact strLe_antisymm hle h1
  · rw [hle] at h2
    simp at h2
    exact strLe_antisymm h2 hle

theorem strLe_of_strLt {a b : List Char} (h : strLt a b = true) : strLe a b = true := by
  rw [strLt_iff] at h
  exact (Bool.and_eq_true_iff.mp h).1

theorem strLt_of_strLe_not {a b : List Char} (h1 : strLe a b = true)
    (h2 : strLe b a = false) : strLt a b = true := by
  rw [strLt_iff, h1, h2]
  rfl

/-- Python tuple comparison `(t1, i1) <= (t2, i2)` for pairs of strings. -/
def pairLe (p q : List Char × List Char) : Bool :=
  if strLt p.1 q.1 then true
  else if strLt q.1 p.1 then false
  else strLe p.2 q.2

theorem pairLe_total (p q : List Char × List Char) :
    pairLe p q = true ∨ pairLe q p = true := by
  unfold pairLe
  by_cases h1 : strLt p.1 q.1
  · left; rw [if_pos h1]
  · by_cases h2 : strLt q.1 p.1
    · right; rw [if_pos h2]
    · rcases strLe_total p.2 q.2 with h | h
      · left; rw [if_neg h1, if_neg h2]; exact h
      · right; rw [if_neg h2, if_neg h1]; exact h

theorem strLe_refl (a : List Char) : strLe a a = true :=
  (strLe_total a a).elim id id

theorem strLt_irrefl (a : List Char) : strLt a a = false := by
  rw [strLt_iff, strLe_refl]
  rfl

theorem strLt_asymm {a b : List Char} (h : strLt a b = true) : strLt b a = false := by
  rw [strLt_iff] at h ⊢
  obtain ⟨hab, _⟩ := Bool.and_eq_true_iff.mp h
  rw [hab]
  simp

theorem strLt_trans {a b c : List Char} (h1 : strLt a b = true)
    (h2 : strLt b c = true) : strLt a c = true := by
  rw [strLt_iff] at h1 h2 ⊢
  obtain ⟨hab, hnba⟩ := Bool.and_eq_true_iff.mp h1
  obtain ⟨hbc, hncb⟩ := Bool.and_eq_true_iff.mp h2
  refine Bool.and_eq_true_iff.mpr ⟨strLe_trans hab hbc, ?_⟩
  simp only [Bool.not_eq_true'] at hncb ⊢
  cases hca : strLe c a with
  | false => rfl
  | true =>
    have : strLe c b = true := strLe_trans hca hab
    rw [this] at hncb
    cases hncb

theorem pairLe_ties {p q : List Char × List Char} (h1 : pairLe p q = true)
    (h2 : pairLe q p = true) : p = q := by
  unfold pairLe at h1 h2
  by_cases ha : strLt p.1 q.1
  · rw [if_neg (by rw [strLt_asymm ha]; simp), if_pos ha] at h2
    exact absurd h2 (by simp)
  · by_cases hb : strLt q.1 p.1
    · rw [if_neg ha, if_pos hb] at h1
      exact absurd h1 (by simp)
    · have hfst : p.1 = q.1 := strLt_false_false_eq (by simpa using ha) (by simpa using hb)
      rw [if_neg ha, if_neg hb] at h1
      rw [if_neg hb, if_neg ha] at h2
      exact Prod.ext hfst (strLe_antisymm h1 h2)

theorem pairLe_trans {p q r : List Char × List Char} (h1 : pairLe p q = true)
    (h2 : pairLe q r = true) : pairLe p r = true := by
  unfold pairLe at h1 h2 ⊢
  by_cases hqp : strLt q.1 p.1
  · rw [if_neg (by rw [strLt_asymm hqp]; simp), if_pos hqp] at h1
    exact absurd h1 (by simp)
  · by_cases hrq : strLt r.1 q.1
    · rw [if_neg (by rw [strLt_asymm hrq]; simp), if_pos hrq] at h2
      exact absurd h2 (by simp)
    · by_cases hpq : strLt p.1 q.1
      · by_cases hqr : strLt q.1 r.1
        · rw [if_pos (strLt_trans hpq hqr)]
        · have heq : q.1 = r.1 := strLt_false_false_eq (by simpa using hqr) (by simpa using hrq)
          rw [if_pos (heq ▸ hpq)]
      · have heq : p.1 = q.1 := strLt_false_false_eq (by simpa using hpq) (by simpa using hqp)
        by_cases hqr : strLt q.1 r.1
        · rw [if_pos (heq ▸ hqr)]
        · have heq2 : q.1 = r.1 := strLt_false_false_eq (by simpa using hqr) (by simpa using hrq)
          rw [if_neg hpq, if_neg hqp] at h1
          rw [if_neg hqr, if_neg hrq] at h2
          rw [if_neg (by rw [heq, heq2]; exact (by simpa using strLt_irrefl r.1)),
            if_neg (by rw [heq, heq2]; exact (by simpa using strLt_irrefl r.1))]
          exact strLe_trans h1 h2

/-- A back-reference to a Work Record as stored in a person's `movie`
list: `{"_id": …, "title": …}`. -/
structure MovieRef where
  mid : Option String
  mtitle : Option String
deriving DecidableEq, Repr

/-- `movie.get("_id") or movie.get("title")`: the dict key under which a
back-reference is deduplicated. -/
def movieKey (m : MovieRef) : Option String := pyOr m.mid m.mtitle

/-- The sort key `(m.get("title") or "", m.get("_id") or "")`. -/
def movieSortKey (m : MovieRef) : List Char × List Char :=
  ((orEmpty m.mtitle).data, (orEmpty m.mid).data)

/-- The sorting relation on back-references used by `merge_person_entry`. -/
def MovLe (m n : MovieRef) : Prop :=
  pairLe (movieSortKey m) (movieSortKey n) = true

instance : DecidableRel MovLe := fun m n =>
  inferInstanceAs (Decidable (pairLe (movieSortKey m) (movieSortKey n) = true))

instance : IsTotal MovieRef MovLe :=
  ⟨fun m n => pairLe_total (movieSortKey m) (movieSortKey n)⟩

instance : IsTrans MovieRef MovLe :=
  ⟨fun _ _ _ h1 h2 => pairLe_trans h1 h2⟩

theorem movLe_ties {m n : MovieRef} (h1 : MovLe m n) (h2 : MovLe n m) :
    movieSortKey m = movieSortKey n := pairLe_ties h1 h2

/-- The sorting relation on role strings (`sorted` of a set of strings). -/
def RoleLe (a b : String) : Prop := strLe a.data b.data = true

instance : DecidableRel RoleLe := fun a b =>
  inferInstanceAs (Decidable (strLe a.data b.data = true))

instance : IsTotal String RoleLe := ⟨fun a b => strLe_total a.data b.data⟩

instance : IsTrans String RoleLe := ⟨fun _ _ _ h1 h2 => strLe_trans h1 h2⟩

instance : IsAntisymm String RoleLe := ⟨fun a b h1 h2 => by
  have h := strLe_antisymm h1 h2
  cases a; cases b
  exact congrArg String.mk h⟩

/-- `sorted(set(target_roles).union(incoming_roles))`: the sorted
enumeration of the union — realised by sorting the deduplicated
concatenation, which has the same members. -/
def merge_roles (target incoming : List String) : List String :=
  List.insertionSort RoleLe ((target ++ incoming).dedup)

/-- Association list standing for the insertion-ordered Python dict
`existing_movies`. -/
abbrev MovMap := List (Option String × MovieRef)

/-- `existing_movies[key] = dict(movie)` for a target movie: replace in
place if the key exists (keeping its position), else append. -/
def upsertMov (k : Option String) (v : MovieRef) : MovMap → MovMap
  | [] => [(k, v)]
  | (k1, v1) :: rest =>
    if k1 = k then (k1, v) :: rest else (k1, v1) :: upsertMov k v rest

/-- `if key not in existing_movies: existing_movies[key] = dict(movie)`
for an incoming movie. -/
def insertAbsentMov (k : Option String) (v : MovieRef) (d : MovMap) : MovMap :=
  if d.any (fun p => p.1 = k) then d else d ++ [(k, v)]

/-- The loop over `target.get("movie")`. -/
def buildTargetMap (ms : List MovieRef) : MovMap :=
  ms.foldl (fun d m => upsertMov (movieKey m) m d) []

/-- The loop over `incoming.get("movie")`. -/
def addIncoming (d : MovMap) (ms : List MovieRef) : MovMap :=
  ms.foldl (fun d m => insertAbsentMov (movieKey m) m d) d

/-- The merged, deduplicated, sorted movie list assigned to
`target["movie"]`. -/
def merge_movies (target incoming : List MovieRef) : List MovieRef :=
  List.insertionSort MovLe
    ((addIncoming (buildTargetMap target) incoming).map Prod.snd)

/-- A Secondary Entity Record (person payload). -/
structure PersonEntry where
  pid : Option String
  pname : Option String
  purl : Option String
  photo_url : Option String
  biography : Option String
  role : List String
  movie : List MovieRef
deriving DecidableEq, Repr

/-- `if not target.get(key) and incoming.get(key): target[key] = incoming[key]`. -/
def fillIfAbsent (t i : Option String) : Option String :=
  if pyFalsy t ∧ ¬ pyFalsy i = true then i else t

/-- Embedding of `merge_person_entry` (the in-place mutation of `target`
is rendered as returning the new target). -/
def merge_person_entry (target incoming : PersonEntry) : PersonEntry :=
  { pid := target.pid
    pname := fillIfAbsent target.pname incoming.pname
    purl := fillIfAbsent target.purl incoming.purl
    photo_url := fillIfAbsent target.photo_url incoming.photo_url
    biography := fillIfAbsent target.biography incoming.biography
    role := merge_roles target.role incoming.role
    movie := merge_movies target.movie incoming.movie }

/-! ### Role-set lemmas -/

theorem merge_roles_mem (t i : List String) (x : String) :
    x ∈ merge_roles t i ↔ x ∈ t ∨ x ∈ i := by
  unfold merge_roles
  rw [(List.perm_insertionSort RoleLe _).mem_iff, List.mem_dedup, List.mem_append]

theorem merge_roles_sorted (t i : List String) :
    List.Sorted RoleLe (merge_roles t i) :=
  List.sorted_insertionSort RoleLe _

theorem merge_roles_nodup (t i : List String) : (merge_roles t i).Nodup :=
  ((List.perm_insertionSort RoleLe _).nodup_iff).mpr (List.nodup_dedup _)

/-- Two sorted deduplicated role lists with the same members coincide. -/
theorem merge_roles_ext (t1 i1 t2 i2 : List String)
    (h : ∀ x, (x ∈ t1 ∨ x ∈ i1) ↔ (x ∈ t2 ∨ x ∈ i2)) :
    merge_roles t1 i1 = merge_roles t2 i2 := by
  refine List.eq_of_perm_of_sorted ?_ (merge_roles_sorted t1 i1) (merge_roles_sorted t2 i2)
  rw [List.perm_ext_iff_of_nodup (merge_roles_nodup t1 i1) (merge_roles_nodup t2 i2)]
  intro x
  rw [merge_roles_mem, merge_roles_mem]
  exact h x

/-! ### Movie-map lemmas -/

/-- Keys of the association map, in insertion order. -/
def keysOf (d : MovMap) : List (Option String) := d.map Prod.fst

/-- Values of the association map, in insertion order
(`existing_movies.values()`). -/
def valsOf (d : MovMap) : List MovieRef := d.map Prod.snd

/-- `existing_movies.get(k)`. -/
def lookupMov (d : MovMap) (k : Option String) : Option MovieRef :=
  (d.find? (fun p => p.1 = k)).map Prod.snd

/-- First movie of a list whose dict key is `k`. -/
def findMov (ms : List MovieRef) (k : Option String) : Option MovieRef :=
  ms.find? (fun m => movieKey m = k)

/-- The map has pairwise distinct keys (true of every Python dict). -/
def KeyNodup (d : MovMap) : Prop := (keysOf d).Nodup

/-- Every binding's key is the dict key of its value. -/
def Coherent (d : MovMap) : Prop := ∀ p ∈ d, p.1 = movieKey p.2

theorem any_key_iff (d : MovMap) (k : Option String) :
    (d.any (fun p => p.1 = k)) = true ↔ k ∈ keysOf d := by
  rw [List.any_eq_true]
  unfold keysOf
  rw [List.mem_map]
  constructor
  · rintro ⟨p, hp, he⟩
    exact ⟨p, hp, by simpa using he⟩
  · rintro ⟨p, hp, he⟩
    exact ⟨p, hp, by simpa using he⟩

theorem mem_upsert (k : Option String) (v : MovieRef) :
    ∀ d : MovMap, ∀ p ∈ upsertMov k v d, p ∈ d ∨ p = (k, v) := by
  intro d
  induction d with
  | nil =>
    intro p hp
    simp only [upsertMov, List.mem_singleton] at hp
    exact Or.inr hp
  | cons q rest ih =>
    intro p hp
    obtain ⟨k1, v1⟩ := q
    simp only [upsertMov] at hp
    by_cases hk : k1 = k
    · rw [if_pos hk] at hp
      rcases List.mem_cons.mp hp with rfl | hp
      · exact Or.inr (by rw [hk])
      · exact Or.inl (List.mem_cons_of_mem _ hp)
    · rw [if_neg hk] at hp
      rcases List.mem_cons.mp hp with rfl | hp
      · exact Or.inl (List.mem_cons_self _ _)
      · rcases ih p hp with h | h
        · exact Or.inl (List.mem_cons_of_mem _ h)
        · exact Or.inr h

theorem upsert_of_absent (k : Option String) (v : MovieRef) :
    ∀ d : MovMap, k ∉ keysOf d → upsertMov k v d = d ++ [(k, v)] := by
  intro d
  induction d with
  | nil => intro _; rfl
  | cons q rest ih =>
    intro hk
    obtain ⟨k1, v1⟩ := q
    have hk1 : k1 ≠ k := by
      intro h
      exact hk (by simp [keysOf, h])
    have hk2 : k ∉ keysOf rest := by
      intro h
      exact hk (by simp [keysOf] at h ⊢; right; exact h)
    simp only [upsertMov, if_neg hk1]
    rw [ih hk2]
    rfl

theorem keysOf_upsert_of_mem (k : Option String) (v : MovieRef) :
    ∀ d : MovMap, k ∈ keysOf d → keysOf (upsertMov k v d) = keysOf d := by
  intro d
  induction d with
  | nil => intro h; simp [keysOf] at h
  | cons q rest ih =>
    intro hk
    obtain ⟨k1, v1⟩ := q
    simp only [upsertMov]
    by_cases h1 : k1 = k
    · rw [if_pos h1]
      simp [keysOf]
    · rw [if_neg h1]
      have : k ∈ keysOf rest := by
        simp only [keysOf, List.map_cons, List.mem_cons] at hk
        rcases hk with h | h
        · exact absurd h.symm h1
        · exact h
      simp only [keysOf, List.map_cons]
      rw [show (upsertMov k v rest).map Prod.fst = keysOf (upsertMov k v rest) from rfl,
        ih this]
      rfl

theorem keysOf_append (d e : MovMap) : keysOf (d ++ e) = keysOf d ++ keysOf e := by
  simp [keysOf]

theorem valsOf_append (d e : MovMap) : valsOf (d ++ e) = valsOf d ++ valsOf e := by
  simp [valsOf]

theorem KeyNodup_upsert (k : Option String) (v : MovieRef) (d : MovMap)
    (hd : KeyNodup d) : KeyNodup (upsertMov k v d) := by
  by_cases hk : k ∈ keysOf d
  · unfold KeyNodup
    rw [keysOf_upsert_of_mem k v d hk]
    exact hd
  · unfold KeyNodup
    rw [upsert_of_absent k v d hk, keysOf_append]
    rw [List.nodup_append]
    refine ⟨hd, List.nodup_singleton k, ?_⟩
    intro x hx hx2
    simp only [keysOf, List.map_cons, List.map_nil, List.mem_singleton] at hx2
    subst hx2
    exact hk hx

theorem Coherent_upsert (k : Option String) (v : MovieRef) (d : MovMap)
    (hkv : k = movieKey v) (hd : Coherent d) : Coherent (upsertMov k v d) := by
  intro p hp
  rcases mem_upsert k v d p hp with h | h
  · exact hd p h
  · subst h
    exact hkv

theorem insertAbsent_of_mem {k : Option String} (v : MovieRef) {d : MovMap}
    (h : k ∈ keysOf d) : insertAbsentMov k v d = d := by
  unfold insertAbsentMov
  rw [if_pos ((any_key_iff d k).mpr h)]

theorem insertAbsent_of_absent {k : Option String} (v : MovieRef) {d : MovMap}
    (h : k ∉ keysOf d) : insertAbsentMov k v d = d ++ [(k, v)] := by
  unfold insertAbsentMov
  rw [if_neg (fun hc => h ((any_key_iff d k).mp hc))]

theorem mem_insertAbsent (k : Option String) (v : MovieRef) (d : MovMap) :
    ∀ p ∈ insertAbsentMov k v d, p ∈ d ∨ p = (k, v) := by
  intro p hp
  by_cases hk : k ∈ keysOf d
  · rw [insertAbsent_of_mem v hk] at hp
    exact Or.inl hp
  · rw [insertAbsent_of_absent v hk] at hp
    rcases List.mem_append.mp hp with h | h
    · exact Or.inl h
    · exact Or.inr (List.mem_singleton.mp h)

theorem keysOf_insertAbsent_superset (k : Option String) (v : MovieRef) (d : MovMap) :
    keysOf d ⊆ keysOf (insertAbsentMov k v d) := by
  by_cases hk : k ∈ keysOf d
  · rw [insertAbsent_of_mem v hk]
    exact List.Subset.refl _
  · rw [insertAbsent_of_absent v hk, keysOf_append]
    exact List.subset_append_left _ _

theorem key_mem_insertAbsent (k : Option String) (v : MovieRef) (d : MovMap) :
    k ∈ keysOf (insertAbsentMov k v d) := by
  by_cases hk : k ∈ keysOf d
  · rw [insertAbsent_of_mem v hk]
    exact hk
  · rw [insertAbsent_of_absent v hk, keysOf_append]
    simp [keysOf]

theorem KeyNodup_insertAbsent (k : Option String) (v : MovieRef) (d : MovMap)
    (hd : KeyNodup d) : KeyNodup (insertAbsentMov k v d) := by
  by_cases hk : k ∈ keysOf d
  · rw [insertAbsent_of_mem v hk]
    exact hd
  · unfold KeyNodup
    rw [insertAbsent_of_absent v hk, keysOf_append, List.nodup_append]
    refine ⟨hd, List.nodup_singleton k, ?_⟩
    intro x hx hx2
    simp only [keysOf, List.map_cons, List.map_nil, List.mem_singleton] at hx2
    subst hx2
    exact hk hx

theorem Coherent_insertAbsent (k : Option String) (v : MovieRef) (d : MovMap)
    (hkv : k = movieKey v) (hd : Coherent d) : Coherent (insertAbsentMov k v d) := by
  intro p hp
  rcases mem_insertAbsent k v d p hp with h | h
  · exact hd p h
  · subst h
    exact hkv

theorem lookup_some_of_key_mem {d : MovMap} {k : Option String}
    (h : k ∈ keysOf d) : ∃ w, lookupMov d k = some w := by
  have : (d.find? (fun p => p.1 = k)).isSome = true := by
    rw [List.find?_isSome]
    obtain ⟨p, hp, he⟩ := List.mem_map.mp h
    exact ⟨p, hp, by simp [he]⟩
  obtain ⟨q, hq⟩ := Option.isSome_iff_exists.mp this
  exact ⟨q.2, by unfold lookupMov; rw [hq]; rfl⟩

theorem lookup_insertAbsent (k0 : Option String) (v : MovieRef) (d : MovMap)
    (k : Option String) :
    lookupMov (insertAbsentMov k0 v d) k =
      (lookupMov d k).or (if k0 = k then some v else none) := by
  by_cases hmem : k0 ∈ keysOf d
  · rw [insertAbsent_of_mem v hmem]
    by_cases hk : k0 = k
    · subst hk
      obtain ⟨w, hw⟩ := lookup_some_of_key_mem hmem
      rw [hw]
      rfl
    · rw [if_neg hk]
      cases lookupMov d k <;> rfl
  · rw [insertAbsent_of_absent v hmem]
    unfold lookupMov
    rw [List.find?_append]
    have hsingle : List.find? (fun p => p.1 = k) [(k0, v)] =
        if k0 = k then some (k0, v) else none := by
      by_cases hk : k0 = k
      · rw [if_pos hk]
        simp [List.find?, hk]
      · rw [if_neg hk]
        simp [List.find?, hk]
    rw [hsingle]
    by_cases hk : k0 = k
    · rw [if_pos hk, if_pos hk]
      cases List.find? (fun p => p.1 = k) d <;> rfl
    · rw [if_neg hk, if_neg hk]
      cases List.find? (fun p => p.1 = k) d <;> rfl

theorem KeyNodup_addIncoming : ∀ (ms : List MovieRef) (d : MovMap),
    KeyNodup d → KeyNodup (addIncoming d ms) := by
  intro ms
  induction ms with
  | nil => intro d hd; exact hd
  | cons m ms ih =>
    intro d hd
    exact ih _ (KeyNodup_insertAbsent (movieKey m) m d hd)

theorem Coherent_addIncoming : ∀ (ms : List MovieRef) (d : MovMap),
    Coherent d → Coherent (addIncoming d ms) := by
  intro ms
  induction ms with
  | nil => intro d hd; exact hd
  | cons m ms ih =>
    intro d hd
    exact ih _ (Coherent_insertAbsent (movieKey m) m d rfl hd)

theorem keysOf_addIncoming_superset : ∀ (ms : List MovieRef) (d : MovMap),
    keysOf d ⊆ keysOf (addIncoming d ms) := by
  intro ms
  induction ms with
  | nil => intro d; exact List.Subset.refl _
  | cons m ms ih =>
    intro d
    exact (keysOf_insertAbsent_superset (movieKey m) m d).trans (ih _)

theorem key_mem_addIncoming : ∀ (ms : List MovieRef) (d : MovMap) (m : MovieRef),
    m ∈ ms → movieKey m ∈ keysOf (addIncoming d ms) := by
  intro ms
  induction ms with
  | nil => intro d m hm; simp at hm
  | cons m0 ms ih =>
    intro d m hm
    rcases List.mem_cons.mp hm with rfl | hm
    · exact keysOf_addIncoming_superset ms _ (key_mem_insertAbsent (movieKey m) m d)
    · exact ih _ m hm

theorem mem_vals_insertAbsent (k : Option String) (v : MovieRef) (d : MovMap) :
    ∀ w ∈ valsOf (insertAbsentMov k v d), w ∈ valsOf d ∨ w = v := by
  intro w hw
  obtain ⟨p, hp, he⟩ := List.mem_map.mp hw
  rcases mem_insertAbsent k v d p hp with h | h
  · exact Or.inl (by rw [← he]; exact List.mem_map_of_mem _ h)
  · subst h
    exact Or.inr he.symm

theorem mem_vals_addIncoming : ∀ (ms : List MovieRef) (d : MovMap) (w : MovieRef),
    w ∈ valsOf (addIncoming d ms) → w ∈ valsOf d ∨ w ∈ ms := by
  intro ms
  induction ms with
  | nil => intro d w hw; exact Or.inl hw
  | cons m ms ih =>
    intro d w hw
    rcases ih _ w hw with h | h
    · rcases mem_vals_insertAbsent (movieKey m) m d w h with h2 | h2
      · exact Or.inl h2
      · exact Or.inr (by rw [h2]; exact List.mem_cons_self _ _)
    · exact Or.inr (List.mem_cons_of_mem _ h)

theorem addIncoming_nop : ∀ (ms : List MovieRef) (d : MovMap),
    (∀ m ∈ ms, movieKey m ∈ keysOf d) → addIncoming d ms = d := by
  intro ms
  induction ms with
  | nil => intro d _; rfl
  | cons m ms ih =>
    intro d h
    show addIncoming (insertAbsentMov (movieKey m) m d) ms = d
    rw [insertAbsent_of_mem m (h m (List.mem_cons_self _ _))]
    exact ih d (fun m2 hm2 => h m2 (List.mem_cons_of_mem _ hm2))

theorem findMov_cons (m : MovieRef) (ms : List MovieRef) (k : Option String) :
    findMov (m :: ms) k =
      if movieKey m = k then some m else findMov ms k := by
  unfold findMov
  by_cases h : movieKey m = k
  · rw [if_pos h, List.find?_cons_of_pos _ (by simp [h])]
  · rw [if_neg h, List.find?_cons_of_neg _ (by simp [h])]

theorem lookup_addIncoming : ∀ (ms : List MovieRef) (d : MovMap) (k : Option String),
    lookupMov (addIncoming d ms) k = (lookupMov d k).or (findMov ms k) := by
  intro ms
  induction ms with
  | nil =>
    intro d k
    show lookupMov d k = (lookupMov d k).or none
    cases lookupMov d k <;> rfl
  | cons m ms ih =>
    intro d k
    show lookupMov (addIncoming (insertAbsentMov (movieKey m) m d) ms) k = _
    rw [ih, lookup_insertAbsent, Option.or_assoc, findMov_cons]
    congr 1
    by_cases h : movieKey m = k
    · rw [if_pos h, if_pos h]
      rfl
    · rw [if_neg h, if_neg h]
      cases findMov ms k <;> rfl

theorem KeyNodup_foldUpsert : ∀ (ms : List MovieRef) (d : MovMap),
    KeyNodup d → KeyNodup (ms.foldl (fun d m => upsertMov (movieKey m) m d) d) := by
  intro ms
  induction ms with
  | nil => intro d hd; exact hd
  | cons m ms ih =>
    intro d hd
    exact ih _ (KeyNodup_upsert (movieKey m) m d hd)

theorem Coherent_foldUpsert : ∀ (ms : List MovieRef) (d : MovMap),
    Coherent d → Coherent (ms.foldl (fun d m => upsertMov (movieKey m) m d) d) := by
  intro ms
  induction ms with
  | nil => intro d hd; exact hd
  | cons m ms ih =>
    intro d hd
    exact ih _ (Coherent_upsert (movieKey m) m d rfl hd)

theorem mem_vals_upsert (k : Option String) (v : MovieRef) (d : MovMap) :
    ∀ w ∈ valsOf (upsertMov k v d), w ∈ valsOf d ∨ w = v := by
  intro w hw
  obtain ⟨p, hp, he⟩ := List.mem_map.mp hw
  rcases mem_upsert k v d p hp with h | h
  · exact Or.inl (by rw [← he]; exact List.mem_map_of_mem _ h)
  · subst h
    exact Or.inr he.symm

theorem mem_vals_foldUpsert : ∀ (ms : List MovieRef) (d : MovMap) (w : MovieRef),
    w ∈ valsOf (ms.foldl (fun d m => upsertMov (movieKey m) m d) d) →
      w ∈ valsOf d ∨ w ∈ ms := by
  intro ms
  induction ms with
  | nil => intro d w hw; exact Or.inl hw
  | cons m ms ih =>
    intro d w hw
    rcases ih _ w hw with h | h
    · rcases mem_vals_upsert (movieKey m) m d w h with h2 | h2
      · exact Or.inl h2
      · exact Or.inr (by rw [h2]; exact List.mem_cons_self _ _)
    · exact Or.inr (List.mem_cons_of_mem _ h)

theorem KeyNodup_build (ms : List MovieRef) : KeyNodup (buildTargetMap ms) :=
  KeyNodup_foldUpsert ms [] (by simp [KeyNodup, keysOf])

theorem Coherent_build (ms : List MovieRef) : Coherent (buildTargetMap ms) :=
  Coherent_foldUpsert ms [] (by intro p hp; simp at hp)

theorem mem_vals_build (ms : List MovieRef) (w : MovieRef)
    (hw : w ∈ valsOf (buildTargetMap ms)) : w ∈ ms := by
  rcases mem_vals_foldUpsert ms [] w hw with h | h
  · simp [valsOf] at h
  · exact h

theorem foldUpsert_eq_append : ∀ (ms : List MovieRef) (d : MovMap),
    (∀ m ∈ ms, movieKey m ∉ keysOf d) → (ms.map movieKey).Nodup →
    ms.foldl (fun d m => upsertMov (movieKey m) m d) d =
      d ++ ms.map (fun m => (movieKey m, m)) := by
  intro ms
  induction ms with
  | nil => intro d _ _; simp
  | cons m ms ih =>
    intro d habs hnd
    show (ms.foldl (fun d m => upsertMov (movieKey m) m d)
      (upsertMov (movieKey m) m d)) = _
    rw [upsert_of_absent (movieKey m) m d (habs m (List.mem_cons_self _ _))]
    rw [ih (d ++ [(movieKey m, m)]) ?habs2 ?hnd2]
    · simp [List.append_assoc]
    case habs2 =>
      intro m2 hm2
      rw [keysOf_append]
      intro hc
      rcases List.mem_append.mp hc with h | h
      · exact habs m2 (List.mem_cons_of_mem _ hm2) h
      · simp only [keysOf, List.map_cons, List.map_nil, List.mem_singleton] at h
        simp only [List.map_cons, List.nodup_cons] at hnd
        exact hnd.1 (h ▸ List.mem_map_of_mem movieKey hm2)
    case hnd2 =>
      simp only [List.map_cons, List.nodup_cons] at hnd
      exact hnd.2

theorem build_eq_map (ms : List MovieRef) (h : (ms.map movieKey).Nodup) :
    buildTargetMap ms = ms.map (fun m => (movieKey m, m)) := by
  have := foldUpsert_eq_append ms [] (by intro m _; simp [keysOf]) h
  simpa [buildTargetMap] using this

theorem findMov_eq_some_iff (ms : List MovieRef) (h : (ms.map movieKey).Nodup)
    (k : Option String) (v : MovieRef) :
    findMov ms k = some v ↔ v ∈ ms ∧ movieKey v = k := by
  constructor
  · intro hf
    refine ⟨List.mem_of_find?_eq_some hf, ?_⟩
    have := List.find?_some hf
    simpa using this
  · rintro ⟨hv, hk⟩
    have hsome : (findMov ms k).isSome = true := by
      unfold findMov
      rw [List.find?_isSome]
      exact ⟨v, hv, by simp [hk]⟩
    obtain ⟨w, hw⟩ := Option.isSome_iff_exists.mp hsome
    have hwmem : w ∈ ms := List.mem_of_find?_eq_some hw
    have hwk : movieKey w = k := by simpa using List.find?_some hw
    have : w = v := List.inj_on_of_nodup_map h hwmem hv (by rw [hwk, hk])
    rw [hw, this]

theorem lookup_eq_some_iff (d : MovMap) (h : KeyNodup d) (k : Option String)
    (v : MovieRef) : lookupMov d k = some v ↔ (k, v) ∈ d := by
  constructor
  · intro hl
    unfold lookupMov at hl
    cases hf : d.find? (fun p => p.1 = k) with
    | none => rw [hf] at hl; cases hl
    | some q =>
      rw [hf] at hl
      have hq : q.2 = v := by simpa using hl
      have hq1 : q.1 = k := by simpa using List.find?_some hf
      have hqmem := List.mem_of_find?_eq_some hf
      rw [← hq1, ← hq]
      exact hqmem
  · intro hmem
    have hsome : ((d.find? (fun p => p.1 = k)).isSome) = true := by
      rw [List.find?_isSome]
      exact ⟨(k, v), hmem, by simp⟩
    obtain ⟨q, hq⟩ := Option.isSome_iff_exists.mp hsome
    have hq1 : q.1 = k := by simpa using List.find?_some hq
    have hqmem := List.mem_of_find?_eq_some hq
    have : q = (k, v) :=
      List.inj_on_of_nodup_map (f := Prod.fst) h hqmem hmem (by simp [hq1])
    unfold lookupMov
    rw [hq, this]
    rfl

theorem pair_mem_iff (d : MovMap) (hC : Coherent d) (k : Option String)
    (v : MovieRef) : (k, v) ∈ d ↔ v ∈ valsOf d ∧ movieKey v = k := by
  constructor
  · intro h
    exact ⟨List.mem_map_of_mem Prod.snd h, (hC (k, v) h).symm⟩
  · rintro ⟨hv, hk⟩
    obtain ⟨p, hp, he⟩ := List.mem_map.mp hv
    have : p.1 = k := by rw [hC p hp, he, hk]
    have hpe : p = (k, v) := Prod.ext this he
    rw [← hpe]
    exact hp

theorem map_movieKey_vals (d : MovMap) (hC : Coherent d) :
    (valsOf d).map movieKey = keysOf d := by
  induction d with
  | nil => rfl
  | cons p rest ih =>
    simp only [valsOf, keysOf, List.map_cons] at ih ⊢
    rw [← hC p (List.mem_cons_self _ _)]
    rw [ih (fun q hq => hC q (List.mem_cons_of_mem _ hq))]

theorem option_ext {o1 o2 : Option MovieRef}
    (h : ∀ v, o1 = some v ↔ o2 = some v) : o1 = o2 := by
  cases o1 with
  | none =>
    cases o2 with
    | none => rfl
    | some v => exact ((h v).mpr rfl).symm ▸ rfl
  | some v => exact ((h v).mp rfl).symm

theorem vals_perm_of_lookup_eq (d1 d2 : MovMap) (h1 : KeyNodup d1)
    (h2 : KeyNodup d2) (h : ∀ k, lookupMov d1 k = lookupMov d2 k) :
    (valsOf d1).Perm (valsOf d2) := by
  have hperm : d1.Perm d2 := by
    rw [List.perm_ext_iff_of_nodup (List.Nodup.of_map Prod.fst h1)
      (List.Nodup.of_map Prod.fst h2)]
    intro p
    rw [show p = (p.1, p.2) from rfl]
    rw [← lookup_eq_some_iff d1 h1, ← lookup_eq_some_iff d2 h2, h p.1]
  exact hperm.map Prod.snd

theorem findMov_vals_eq_lookup (d : MovMap) (hN : KeyNodup d) (hC : Coherent d)
    (k : Option String) : findMov (valsOf d) k = lookupMov d k := by
  apply option_ext
  intro v
  rw [findMov_eq_some_iff (valsOf d) (by rw [map_movieKey_vals d hC]; exact hN) k v]
  rw [lookup_eq_some_iff d hN k v, pair_mem_iff d hC k v]

theorem findMov_perm {ms1 ms2 : List MovieRef} (hp : ms1.Perm ms2)
    (hn : (ms1.map movieKey).Nodup) (k : Option String) :
    findMov ms1 k = findMov ms2 k := by
  have hn2 : (ms2.map movieKey).Nodup := ((hp.map movieKey).nodup_iff).mp hn
  apply option_ext
  intro v
  rw [findMov_eq_some_iff ms1 hn k v, findMov_eq_some_iff ms2 hn2 k v, hp.mem_iff]

theorem lookup_build_eq_findMov (ms : List MovieRef)
    (h : (ms.map movieKey).Nodup) (k : Option String) :
    lookupMov (buildTargetMap ms) k = findMov ms k := by
  apply option_ext
  intro v
  rw [lookup_eq_some_iff _ (KeyNodup_build ms) k v]
  rw [findMov_eq_some_iff ms h k v]
  rw [build_eq_map ms h]
  constructor
  · intro hmem
    obtain ⟨m, hm, he⟩ := List.mem_map.mp hmem
    have hv : m = v := congrArg Prod.snd he
    subst hv
    exact ⟨hm, congrArg Prod.fst he⟩
  · rintro ⟨hv, hk⟩
    have : (k, v) = (fun m => (movieKey m, m)) v := by rw [← hk]
    rw [this]
    exact List.mem_map_of_mem _ hv

theorem vals_build_of_nodup (ms : List MovieRef) (h : (ms.map movieKey).Nodup) :
    valsOf (buildTargetMap ms) = ms := by
  rw [build_eq_map ms h]
  unfold valsOf
  rw [List.map_map]
  have : (Prod.snd ∘ fun m : MovieRef => (movieKey m, m)) = id := rfl
  rw [this, List.map_id]

/-- Two sorted lists that are a permutation of each other and whose
cross-elements with equal sort keys are equal, coincide. -/
theorem sorted_perm_ties_eq : ∀ {l1 l2 : List MovieRef}, l1.Perm l2 →
    List.Sorted MovLe l1 → List.Sorted MovLe l2 →
    (∀ m ∈ l1, ∀ n ∈ l2, movieSortKey m = movieSortKey n → m = n) →
    l1 = l2 := by
  intro l1
  induction l1 with
  | nil =>
    intro l2 hp _ _ _
    exact hp.nil_eq
  | cons a t1 ih =>
    intro l2 hp hs1 hs2 hties
    cases l2 with
    | nil => exact absurd hp.symm.nil_eq (by simp)
    | cons b t2 =>
      have hab : a = b := by
        by_cases he : a = b
        · exact he
        · have hamem : a ∈ b :: t2 := hp.mem_iff.mp (List.mem_cons_self _ _)
          have hbmem : b ∈ a :: t1 := hp.mem_iff.mpr (List.mem_cons_self _ _)
          have hba : MovLe b a := by
            rcases List.mem_cons.mp hamem with h | h
            · exact absurd h he
            · exact List.rel_of_sorted_cons hs2 a h
          have hab2 : MovLe a b := by
            rcases List.mem_cons.mp hbmem with h | h
            · exact absurd h.symm he
            · exact List.rel_of_sorted_cons hs1 b h
          exact hties a (List.mem_cons_self _ _) b (List.mem_cons_self _ _)
            (movLe_ties hab2 hba)
      subst hab
      have hp2 : t1.Perm t2 := hp.cons_inv
      rw [ih hp2 (List.sorted_cons.mp hs1).2 (List.sorted_cons.mp hs2).2
        (fun m hm n hn he => hties m (List.mem_cons_of_mem _ hm) n
          (List.mem_cons_of_mem _ hn) he)]

theorem merge_movies_eq_sort_vals (t i : List MovieRef) :
    merge_movies t i =
      List.insertionSort MovLe (valsOf (addIncoming (buildTargetMap t) i)) := rfl

theorem KeyNodup_merge_map (t i : List MovieRef) :
    KeyNodup (addIncoming (buildTargetMap t) i) :=
  KeyNodup_addIncoming i _ (KeyNodup_build t)

theorem Coherent_merge_map (t i : List MovieRef) :
    Coherent (addIncoming (buildTargetMap t) i) :=
  Coherent_addIncoming i _ (Coherent_build t)

theorem merge_movies_keys_nodup (t i : List MovieRef) :
    ((merge_movies t i).map movieKey).Nodup := by
  have hperm : (merge_movies t i).Perm (valsOf (addIncoming (buildTargetMap t) i)) :=
    List.perm_insertionSort MovLe _
  rw [(hperm.map movieKey).nodup_iff,
    map_movieKey_vals _ (Coherent_merge_map t i)]
  exact KeyNodup_merge_map t i

theorem merge_movies_mem (t i : List MovieRef) (w : MovieRef)
    (hw : w ∈ merge_movies t i) : w ∈ t ∨ w ∈ i := by
  have hperm : (merge_movies t i).Perm (valsOf (addIncoming (buildTargetMap t) i)) :=
    List.perm_insertionSort MovLe _
  rcases mem_vals_addIncoming i _ w (hperm.mem_iff.mp hw) with h | h
  · exact Or.inl (mem_vals_build t w h)
  · exact Or.inr h

theorem merge_movies_sorted (t i : List MovieRef) :
    List.Sorted MovLe (merge_movies t i) :=
  List.sorted_insertionSort MovLe _

/-- Re-applying the same incoming movie list is a no-op: idempotence of
the back-reference merge. -/
theorem merge_movies_idem (t i : List MovieRef) :
    merge_movies (merge_movies t i) i = merge_movies t i := by
  set D := addIncoming (buildTargetMap t) i with hD
  set M := merge_movies t i with hM
  have hperm : M.Perm (valsOf D) := List.perm_insertionSort MovLe _
  have hMkeys : (M.map movieKey).Nodup := merge_movies_keys_nodup t i
  have hbuild : buildTargetMap M = M.map (fun m => (movieKey m, m)) :=
    build_eq_map M hMkeys
  have hkeysM : keysOf (buildTargetMap M) = M.map movieKey := by
    rw [hbuild]
    unfold keysOf
    rw [List.map_map]
    rfl
  have hallkeys : ∀ m ∈ i, movieKey m ∈ keysOf (buildTargetMap M) := by
    intro m hm
    rw [hkeysM]
    have h1 : movieKey m ∈ keysOf D := key_mem_addIncoming i _ m hm
    rw [← map_movieKey_vals D (Coherent_merge_map t i)] at h1
    exact ((hperm.map movieKey).mem_iff).mpr h1
  show List.insertionSort MovLe
    ((addIncoming (buildTargetMap M) i).map Prod.snd) = M
  rw [addIncoming_nop i _ hallkeys]
  rw [show (buildTargetMap M).map Prod.snd = valsOf (buildTargetMap M) from rfl]
  rw [vals_build_of_nodup M hMkeys]
  exact List.Sorted.insertionSort_eq (merge_movies_sorted t i)

theorem lookup_merge_map (t i : List MovieRef) (k : Option String) :
    lookupMov (addIncoming (buildTargetMap t) i) k =
      (lookupMov (buildTargetMap t) k).or (findMov i k) :=
  lookup_addIncoming i _ k

theorem lookup_build_merge (t i : List MovieRef) (k : Option String) :
    lookupMov (buildTargetMap (merge_movies t i)) k =
      lookupMov (addIncoming (buildTargetMap t) i) k := by
  rw [lookup_build_eq_findMov _ (merge_movies_keys_nodup t i)]
  have hperm : (merge_movies t i).Perm (valsOf (addIncoming (buildTargetMap t) i)) :=
    List.perm_insertionSort MovLe _
  rw [findMov_perm hperm (merge_movies_keys_nodup t i) k]
  exact findMov_vals_eq_lookup _ (KeyNodup_merge_map t i) (Coherent_merge_map t i) k

/-- Commutativity of the back-reference merge, provided the two incoming
payloads agree on entries sharing a dict key (hypothesis `H1`) and no two
distinct entries share the sort key `(title or "", id or "")`
(hypothesis `H2`). -/
theorem merge_movies_comm (t a b : List MovieRef)
    (H1 : ∀ ma ∈ a, ∀ mb ∈ b, movieKey ma = movieKey mb → ma = mb)
    (H2 : ∀ m ∈ t ++ a ++ b, ∀ n ∈ t ++ a ++ b,
      movieSortKey m = movieSortKey n → m = n) :
    merge_movies (merge_movies t a) b = merge_movies (merge_movies t b) a := by
  have hlook : ∀ k,
      lookupMov (addIncoming (buildTargetMap (merge_movies t a)) b) k =
      lookupMov (addIncoming (buildTargetMap (merge_movies t b)) a) k := by
    intro k
    rw [lookup_addIncoming b _ k, lookup_addIncoming a _ k]
    rw [lookup_build_merge t a k, lookup_build_merge t b k]
    rw [lookup_addIncoming a _ k, lookup_addIncoming b _ k]
    rw [Option.or_assoc, Option.or_assoc]
    congr 1
    cases hfa : findMov a k with
    | none =>
      cases hfb : findMov b k with
      | none => rfl
      | some vb => rfl
    | some va =>
      cases hfb : findMov b k with
      | none => rfl
      | some vb =>
        have hva : va ∈ a ∧ movieKey va = k :=
          ⟨List.mem_of_find?_eq_some hfa, by simpa using List.find?_some hfa⟩
        have hvb : vb ∈ b ∧ movieKey vb = k :=
          ⟨List.mem_of_find?_eq_some hfb, by simpa using List.find?_some hfb⟩
        rw [H1 va hva.1 vb hvb.1 (by rw [hva.2, hvb.2])]
  have hN1 := KeyNodup_merge_map (merge_movies t a) b
  have hN2 := KeyNodup_merge_map (merge_movies t b) a
  have hvalsperm := vals_perm_of_lookup_eq _ _ hN1 hN2 hlook
  have hmem1 : ∀ m ∈ merge_movies (merge_movies t a) b, m ∈ t ++ a ++ b := by
    intro m hm
    rcases merge_movies_mem _ _ m hm with h | h
    · rcases merge_movies_mem t a m h with h2 | h2
      · simp [h2]
      · simp [h2]
    · simp [h]
  have hmem2 : ∀ m ∈ merge_movies (merge_movies t b) a, m ∈ t ++ a ++ b := by
    intro m hm
    rcases merge_movies_mem _ _ m hm with h | h
    · rcases merge_movies_mem t b m h with h2 | h2
      · simp [h2]
      · simp [h2]
    · simp [h]
  refine sorted_perm_ties_eq ?_ (merge_movies_sorted _ _) (merge_movies_sorted _ _)
    (fun m hm n hn he => H2 m (hmem1 m hm) n (hmem2 n hn) he)
  exact ((List.perm_insertionSort MovLe _).trans hvalsperm).trans
    (List.perm_insertionSort MovLe _).symm

/-- **C1 counterexample** — The claim's commutativity equation fails as
stated: with `X` empty and `A`, `B` two payloads for the same person that
mention the same work id `"ms1"` under different display titles, the two
merge orders keep different back-reference lists (the first payload to
arrive wins the dict slot). -/
theorem C1_merge_counterexample :
    (merge_person_entry (merge_person_entry
      { pid := some "p1", pname := none, purl := none, photo_url := none,
        biography := none, role := [], movie := [] }
      { pid := none, pname := none, purl := none, photo_url := none,
        biography := none, role := [],
        movie := [{ mid := some "ms1", mtitle := some "Title A" }] })
      { pid := none, pname := none, purl := none, photo_url := none,
        biography := none, role := [],
        movie := [{ mid := some "ms1", mtitle := some "Title B" }] }).movie ≠
    (merge_person_entry (merge_person_entry
      { pid := some "p1", pname := none, purl := none, photo_url := none,
        biography := none, role := [], movie := [] }
      { pid := none, pname := none, purl := none, photo_url := none,
        biography := none, role := [],
        movie := [{ mid := some "ms1", mtitle := some "Title B" }] })
      { pid := none, pname := none, purl := none, photo_url := none,
        biography := none, role := [],
        movie := [{ mid := some "ms1", mtitle := some "Title A" }] }).movie := by
  decide

/-- **C1 (amended)** — For any payloads `X`, `A`, `B` for the same external
id: re-applying `A` is a no-op on both the role set and the back-reference
list (idempotence, unconditional), and the two application orders of `A`
and `B` agree on the role set unconditionally; they agree on the
back-reference list provided any entries of `A` and `B` sharing a
back-reference dict key are identical — the counterexample shows this
proviso is necessary — and no two distinct entries involved share the sort
key `(title or "", id or "")`. Only the last conjunct carries these two
provisos; the first three hold for all payloads. -/
theorem C1_merge_amended (X A B : PersonEntry) :
    (merge_person_entry (merge_person_entry X A) A).role =
      (merge_person_entry X A).role ∧
    (merge_person_entry (merge_person_entry X A) A).movie =
      (merge_person_entry X A).movie ∧
    (merge_person_entry (merge_person_entry X A) B).role =
      (merge_person_entry (merge_person_entry X B) A).role ∧
    ((∀ ma ∈ A.movie, ∀ mb ∈ B.movie, movieKey ma = movieKey mb → ma = mb) →
      (∀ m ∈ X.movie ++ A.movie ++ B.movie,
        ∀ n ∈ X.movie ++ A.movie ++ B.movie,
        movieSortKey m = movieSortKey n → m = n) →
      (merge_person_entry (merge_person_entry X A) B).movie =
        (merge_person_entry (merge_person_entry X B) A).movie) := by
  refine ⟨?_, ?_, ?_, fun H1 H2 => ?_⟩
  · show merge_roles (merge_roles X.role A.role) A.role = merge_roles X.role A.role
    apply merge_roles_ext
    intro x
    rw [merge_roles_mem]
    tauto
  · exact merge_movies_idem X.movie A.movie
  · show merge_roles (merge_roles X.role A.role) B.role =
      merge_roles (merge_roles X.role B.role) A.role
    apply merge_roles_ext
    intro x
    rw [merge_roles_mem, merge_roles_mem]
    tauto
  · exact merge_movies_comm X.movie A.movie B.movie H1 H2

/-- Witness for C1 (amended): concrete payloads with compatible
back-references, where both orders produce the same sorted record. -/
theorem C1_merge_witness :
    (merge_person_entry (merge_person_entry
      { pid := some "p1", pname := none, purl := none, photo_url := none,
        biography := none, role := ["Actor"],
        movie := [{ mid := some "ms1", mtitle := some "Title A" }] }
      { pid := none, pname := none, purl := none, photo_url := none,
        biography := none, role := ["Writer"],
        movie := [{ mid := some "ms2", mtitle := some "Title B" }] })
      { pid := none, pname := none, purl := none, photo_url := none,
        biography := none, role := ["Director"],
        movie := [{ mid := some "ms3", mtitle := some "Title C" }] }).movie =
    (merge_person_entry (merge_person_entry
      { pid := some "p1", pname := none, purl := none, photo_url := none,
        biography := none, role := ["Actor"],
        movie := [{ mid := some "ms1", mtitle := some "Title A" }] }
      { pid := none, pname := none, purl := none, photo_url := none,
        biography := none, role := ["Director"],
        movie := [{ mid := some "ms3", mtitle := some "Title C" }] })
      { pid := none, pname := none, purl := none, photo_url := none,
        biography := none, role := ["Writer"],
        movie := [{ mid := some "ms2", mtitle := some "Title B" }] }).movie := by
  have h := C1_merge_amended
    { pid := some "p1", pname := none, purl := none, photo_url := none,
      biography := none, role := ["Actor"],
      movie := [{ mid := some "ms1", mtitle := some "Title A" }] }
    { pid := none, pname := none, purl := none, photo_url := none,
      biography := none, role := ["Writer"],
      movie := [{ mid := some "ms2", mtitle := some "Title B" }] }
    { pid := none, pname := none, purl := none, photo_url := none,
      biography := none, role := ["Director"],
      movie := [{ mid := some "ms3", mtitle := some "Title C" }] }
  exact h.2.2.2 (by decide) (by decide)

/-- **C6** — Internal identifiers are never reused across runs: a
continuation run restarts above every numeric id parsed from the existing
store (`max + 1`), each run's successive assignments strictly increase and
produce pairwise distinct id strings, a freshly formatted id can never
collide with any id string already in the store, and the person merge
never rewrites an already-assigned `_id` (ids are set once, at first
persistence).  `ids` are the `_id` strings of the movie store, `pids`
those of the people store. -/
theorem C6_internal_id_assignment (ids pids : List (List Char)) (k j : ℕ)
    (hkj : k < j) :
    (∀ v ∈ ids.filterMap parse_ms_id, v < next_numeric_id ids) ∧
    (∀ v ∈ pids.filterMap parse_p_id, v < next_person_numeric_id pids) ∧
    parse_ms_id (ms_id_string (next_numeric_id ids + k)) =
      some (next_numeric_id ids + k) ∧
    next_numeric_id ids + k < next_numeric_id ids + j ∧
    ms_id_string (next_numeric_id ids + k) ≠
      ms_id_string (next_numeric_id ids + j) ∧
    ms_id_string (next_numeric_id ids + k) ∉ ids ∧
    p_id_string (next_person_numeric_id pids + k) ∉ pids ∧
    (∀ t i : PersonEntry, (merge_person_entry t i).pid = t.pid) := by
  refine ⟨fun v hv => mem_lt_next_numeric_id ids v hv,
    fun v hv => mem_lt_next_person_numeric_id pids v hv,
    parse_ms_id_roundtrip _, by omega, ?_, ?_, ?_, fun t i => rfl⟩
  · intro he
    have := ms_id_string_injective he
    omega
  · intro hmem
    have hval : next_numeric_id ids + k ∈ ids.filterMap parse_ms_id := by
      rw [List.mem_filterMap]
      exact ⟨ms_id_string (next_numeric_id ids + k), hmem, parse_ms_id_roundtrip _⟩
    have := mem_lt_next_numeric_id ids _ hval
    omega
  · intro hmem
    have hval : next_person_numeric_id pids + k ∈ pids.filterMap parse_p_id := by
      rw [List.mem_filterMap]
      exact ⟨p_id_string (next_person_numeric_id pids + k), hmem,
        parse_p_id_roundtrip _⟩
    have := mem_lt_next_person_numeric_id pids _ hval
    omega

/-- Witness for C6: a store holding `ms000000000041` continues at 42 and
the next two fresh ids avoid the store. -/
theorem C6_witness :
    next_numeric_id ["ms000000000041".data] + 0 <
      next_numeric_id ["ms000000000041".data] + 1 ∧
    ms_id_string (next_numeric_id ["ms000000000041".data] + 0) ∉
      ["ms000000000041".data] ∧
    next_numeric_id ["ms000000000041".data] = 42 := by
  have h := C6_internal_id_assignment ["ms000000000041".data] [] 0 1 (by omega)
  exact ⟨h.2.2.2.1, h.2.2.2.2.2.1, by decide⟩

/-! ## Resumable job planner, stage one (class_movies_series.py lines
1350–1361)

The loop enumerates the candidate rows from 1, normalizes each row's
`imdbId` through `parse_imdb_numeric`, skips rows without a numeric id,
forms the key `f"tt{imdb_numeric:07d}"`, skips keys already in
`existing_ids` (read from the store) or in `scheduled_ids` (keys emitted
earlier in this pass), and otherwise emits the job
`(idx, imdb_numeric)` and adds the key to `scheduled_ids`. -/

/-- `f"tt{n:07d}"` (a negative value keeps its sign inside the 7-char
zero-padded field, as in Python). -/
def tt_id_string (n : ℤ) : List Char :=
  if n < 0 then
    't' :: 't' :: '-' ::
      (List.replicate (6 - (decChars n.natAbs).length) '0' ++ decChars n.natAbs)
  else
    't' :: 't' ::
      (List.replicate (7 - (decChars n.natAbs).length) '0' ++ decChars n.natAbs)

/-- The planning loop over the remaining candidate rows; `idx` is the
1-based position of the next row. -/
def plan_movies_aux (existing scheduled : List (List Char)) (idx : ℕ) :
    List PyVal → List (ℕ × ℤ)
  | [] => []
  | r :: rest =>
    match parse_imdb_numeric r with
    | none => plan_movies_aux existing scheduled (idx + 1) rest
    | some n =>
      if tt_id_string n ∈ existing ∨ tt_id_string n ∈ scheduled then
        plan_movies_aux existing scheduled (idx + 1) rest
      else (idx, n) :: plan_movies_aux existing (tt_id_string n :: scheduled) (idx + 1) rest

/-- `movies_to_process` as computed by the planning loop. -/
def plan_movies (records : List PyVal) (existing : List (List Char)) :
    List (ℕ × ℤ) :=
  plan_movies_aux existing [] 1 records

/-- The normalized keys of a job list (these are the `imdb_id` strings the
store will hold once the jobs complete). -/
def plan_keys (jobs : List (ℕ × ℤ)) : List (List Char) :=
  jobs.map (fun j => tt_id_string j.2)

theorem plan_aux_keys_avoid : ∀ (rest : List PyVal) (existing scheduled : List (List Char))
    (idx : ℕ) (j : ℕ × ℤ), j ∈ plan_movies_aux existing scheduled idx rest →
    tt_id_string j.2 ∉ existing ∧ tt_id_string j.2 ∉ scheduled := by
  intro rest
  induction rest with
  | nil => intro existing scheduled idx j hj; simp [plan_movies_aux] at hj
  | cons r rest ih =>
    intro existing scheduled idx j hj
    cases hp : parse_imdb_numeric r with
    | none =>
      simp only [plan_movies_aux, hp] at hj
      exact ih existing scheduled (idx + 1) j hj
    | some n =>
      simp only [plan_movies_aux, hp] at hj
      by_cases hmem : tt_id_string n ∈ existing ∨ tt_id_string n ∈ scheduled
      · rw [if_pos hmem] at hj
        exact ih existing scheduled (idx + 1) j hj
      · rw [if_neg hmem] at hj
        rcases List.mem_cons.mp hj with rfl | hj
        · push_neg at hmem
          exact hmem
        · have := ih existing (tt_id_string n :: scheduled) (idx + 1) j hj
          exact ⟨this.1, fun hc => this.2 (List.mem_cons_of_mem _ hc)⟩

theorem plan_aux_keys_nodup : ∀ (rest : List PyVal) (existing scheduled : List (List Char))
    (idx : ℕ), (plan_keys (plan_movies_aux existing scheduled idx rest)).Nodup := by
  intro rest
  induction rest with
  | nil => intro existing scheduled idx; simp [plan_movies_aux, plan_keys]
  | cons r rest ih =>
    intro existing scheduled idx
    cases hp : parse_imdb_numeric r with
    | none =>
      simp only [plan_movies_aux, hp]
      exact ih existing scheduled (idx + 1)
    | some n =>
      simp only [plan_movies_aux, hp]
      by_cases hmem : tt_id_string n ∈ existing ∨ tt_id_string n ∈ scheduled
      · rw [if_pos hmem]
        exact ih existing scheduled (idx + 1)
      · rw [if_neg hmem]
        unfold plan_keys
        rw [List.map_cons, List.nodup_cons]
        refine ⟨?_, ih existing (tt_id_string n :: scheduled) (idx + 1)⟩
        intro hc
        obtain ⟨j, hj, he⟩ := List.mem_map.mp hc
        have := (plan_aux_keys_avoid rest existing (tt_id_string n :: scheduled)
          (idx + 1) j hj).2
        exact this (by rw [he]; exact List.mem_cons_self _ _)

theorem plan_aux_empty_of_covered : ∀ (rest : List PyVal)
    (existing scheduled : List (List Char)) (idx : ℕ),
    (∀ r ∈ rest, ∀ n, parse_imdb_numeric r = some n → tt_id_string n ∈ existing) →
    plan_movies_aux existing scheduled idx rest = [] := by
  intro rest
  induction rest with
  | nil => intro existing scheduled idx _; rfl
  | cons r rest ih =>
    intro existing scheduled idx h
    cases hp : parse_imdb_numeric r with
    | none =>
      simp only [plan_movies_aux, hp]
      exact ih existing scheduled (idx + 1) (fun r2 h2 => h r2 (by simp [h2]))
    | some n =>
      simp only [plan_movies_aux, hp]
      rw [if_pos (Or.inl (h r (List.mem_cons_self _ _) n hp))]
      exact ih existing scheduled (idx + 1) (fun r2 h2 => h r2 (by simp [h2]))

theorem plan_aux_coverage : ∀ (rest : List PyVal)
    (existing scheduled : List (List Char)) (idx : ℕ),
    ∀ r ∈ rest, ∀ n, parse_imdb_numeric r = some n →
      tt_id_string n ∈ existing ∨ tt_id_string n ∈ scheduled ∨
      tt_id_string n ∈ plan_keys (plan_movies_aux existing scheduled idx rest) := by
  intro rest
  induction rest with
  | nil => intro existing scheduled idx r hr; simp at hr
  | cons r0 rest ih =>
    intro existing scheduled idx r hr n hn
    cases hp : parse_imdb_numeric r0 with
    | none =>
      simp only [plan_movies_aux, hp]
      rcases List.mem_cons.mp hr with rfl | hr
      · rw [hp] at hn; cases hn
      · exact ih existing scheduled (idx + 1) r hr n hn
    | some n0 =>
      simp only [plan_movies_aux, hp]
      by_cases hmem : tt_id_string n0 ∈ existing ∨ tt_id_string n0 ∈ scheduled
      · rw [if_pos hmem]
        rcases List.mem_cons.mp hr with rfl | hr
        · rw [hp] at hn
          cases hn
          rcases hmem with h | h
          · exact Or.inl h
          · exact Or.inr (Or.inl h)
        · exact ih existing scheduled (idx + 1) r hr n hn
      · rw [if_neg hmem]
        rcases List.mem_cons.mp hr with rfl | hr
        · rw [hp] at hn
          cases hn
          exact Or.inr (Or.inr (by unfold plan_keys; simp))
        · rcases ih existing (tt_id_string n0 :: scheduled) (idx + 1) r hr n hn with
            h | h | h
          · exact Or.inl h
          · rcases List.mem_cons.mp h with he | h2
            · exact Or.inr (Or.inr (by unfold plan_keys; rw [he]; simp))
            · exact Or.inr (Or.inl h2)
          · refine Or.inr (Or.inr ?_)
            unfold plan_keys at h ⊢
            rw [List.map_cons]
            exact List.mem_cons_of_mem _ h

theorem plan_aux_char : ∀ (rest : List PyVal) (existing scheduled : List (List Char))
    (idx : ℕ) (j : ℕ × ℤ),
    j ∈ plan_movies_aux existing scheduled idx rest ↔
      ∃ p r, rest.get? p = some r ∧ j.1 = idx + p ∧
        parse_imdb_numeric r = some j.2 ∧
        tt_id_string j.2 ∉ existing ∧ tt_id_string j.2 ∉ scheduled ∧
        (∀ q rq nq, q < p → rest.get? q = some rq →
          parse_imdb_numeric rq = some nq →
          tt_id_string nq ≠ tt_id_string j.2) := by
  intro rest
  induction rest with
  | nil =>
    intro existing scheduled idx j
    simp [plan_movies_aux]
  | cons r0 rest ih =>
    intro existing scheduled idx j
    cases hp : parse_imdb_numeric r0 with
    | none =>
      simp only [plan_movies_aux, hp]
      rw [ih existing scheduled (idx + 1) j]
      constructor
      · rintro ⟨p, r, hget, hidx, hpar, hex, hsch, hearly⟩
        refine ⟨p + 1, r, by simpa using hget, by omega, hpar, hex, hsch, ?_⟩
        intro q rq nq hq hgq hpq
        match q with
        | 0 =>
          rw [List.get?_cons_zero] at hgq
          cases hgq
          rw [hp] at hpq
          cases hpq
        | q + 1 =>
          rw [List.get?_cons_succ] at hgq
          exact hearly q rq nq (by omega) hgq hpq
      · rintro ⟨p, r, hget, hidx, hpar, hex, hsch, hearly⟩
        match p with
        | 0 =>
          rw [List.get?_cons_zero] at hget
          cases hget
          rw [hp] at hpar
          cases hpar
        | p + 1 =>
          rw [List.get?_cons_succ] at hget
          refine ⟨p, r, hget, by omega, hpar, hex, hsch, ?_⟩
          intro q rq nq hq hgq hpq
          exact hearly (q + 1) rq nq (by omega) (by simpa using hgq) hpq
    | some n0 =>
      simp only [plan_movies_aux, hp]
      by_cases hmem : tt_id_string n0 ∈ existing ∨ tt_id_string n0 ∈ scheduled
      · rw [if_pos hmem]
        rw [ih existing scheduled (idx + 1) j]
        constructor
        · rintro ⟨p, r, hget, hidx, hpar, hex, hsch, hearly⟩
          refine ⟨p + 1, r, by simpa using hget, by omega, hpar, hex, hsch, ?_⟩
          intro q rq nq hq hgq hpq
          match q with
          | 0 =>
            rw [List.get?_cons_zero] at hgq
            cases hgq
            rw [hp] at hpq
            cases hpq
            intro he
            rw [← he] at hex hsch
            rcases hmem with h | h
            · exact hex h
            · exact hsch h
          | q + 1 =>
            rw [List.get?_cons_succ] at hgq
            exact hearly q rq nq (by omega) hgq hpq
        · rintro ⟨p, r, hget, hidx, hpar, hex, hsch, hearly⟩
          match p with
          | 0 =>
            rw [List.get?_cons_zero] at hget
            cases hget
            rw [hp] at hpar
            cases hpar
            rcases hmem with h | h
            · exact absurd h hex
            · exact absurd h hsch
          | p + 1 =>
            rw [List.get?_cons_succ] at hget
            refine ⟨p, r, hget, by omega, hpar, hex, hsch, ?_⟩
            intro q rq nq hq hgq hpq
            exact hearly (q + 1) rq nq (by omega) (by simpa using hgq) hpq
      · rw [if_neg hmem]
        push_neg at hmem
        constructor
        · intro hj
          rcases List.mem_cons.mp hj with rfl | hj
          · refine ⟨0, r0, List.get?_cons_zero, by omega, hp, hmem.1, hmem.2, ?_⟩
            intro q rq nq hq _ _
            omega
          · obtain ⟨p, r, hget, hidx, hpar, hex, hsch, hearly⟩ :=
              (ih existing (tt_id_string n0 :: scheduled) (idx + 1) j).mp hj
            refine ⟨p + 1, r, by simpa using hget, by omega, hpar, hex,
              fun hc => hsch (List.mem_cons_of_mem _ hc), ?_⟩
            intro q rq nq hq hgq hpq
            match q with
            | 0 =>
              rw [List.get?_cons_zero] at hgq
              cases hgq
              rw [hp] at hpq
              cases hpq
              intro he
              exact hsch (by rw [← he]; exact List.mem_cons_self _ _)
            | q + 1 =>
              rw [List.get?_cons_succ] at hgq
              exact hearly q rq nq (by omega) hgq hpq
        · rintro ⟨p, r, hget, hidx, hpar, hex, hsch, hearly⟩
          rw [List.mem_cons]
          match p with
          | 0 =>
            rw [List.get?_cons_zero] at hget
            cases hget
            rw [hp] at hpar
            have hj2 : j.2 = n0 := by
              injection hpar with h
              exact h.symm
            have hj1 : j.1 = idx := by omega
            left
            rw [show j = (j.1, j.2) from rfl, hj1, hj2]
          | p + 1 =>
            rw [List.get?_cons_succ] at hget
            right
            rw [ih existing (tt_id_string n0 :: scheduled) (idx + 1) j]
            refine ⟨p, r, hget, by omega, hpar, hex, ?_, ?_⟩
            · intro hc
              rcases List.mem_cons.mp hc with he | hc2
              · exact hearly 0 r0 n0 (by omega) List.get?_cons_zero hp he.symm
              · exact hsch hc2
            · intro q rq nq hq hgq hpq
              exact hearly (q + 1) rq nq (by omega) (by simpa using hgq) hpq

/-- **Characterization of the stage-one planner**: a job is emitted exactly
for a candidate whose normalized key is neither in the persisted set nor
carried by any earlier candidate of the same list. -/
theorem plan_movies_char (records : List PyVal) (existing : List (List Char))
    (j : ℕ × ℤ) :
    j ∈ plan_movies records existing ↔
      ∃ p r, records.get? p = some r ∧ j.1 = p + 1 ∧
        parse_imdb_numeric r = some j.2 ∧
        tt_id_string j.2 ∉ existing ∧
        (∀ q rq nq, q < p → records.get? q = some rq →
          parse_imdb_numeric rq = some nq →
          tt_id_string nq ≠ tt_id_string j.2) := by
  rw [plan_movies, plan_aux_char records existing [] 1 j]
  constructor
  · rintro ⟨p, r, hget, hidx, hpar, hex, _, hearly⟩
    exact ⟨p, r, hget, by omega, hpar, hex, hearly⟩
  · rintro ⟨p, r, hget, hidx, hpar, hex, hearly⟩
    exact ⟨p, r, hget, by omega, hpar, hex, by simp, hearly⟩

/-- Running the planner again with the store extended by the first run's
keys yields nothing. -/
theorem plan_movies_second_run_empty (records : List PyVal)
    (existing : List (List Char)) :
    plan_movies records (existing ++ plan_keys (plan_movies records existing)) = [] := by
  apply plan_aux_empty_of_covered
  intro r hr n hn
  rcases plan_aux_coverage records existing [] 1 r hr n hn with h | h | h
  · exact List.mem_append_left _ h
  · simp at h
  · exact List.mem_append_right _ h

/-! ## Resumable job planner, stage two (`build_rows_to_process`,
people_functions.py lines 575–653)

A movie row carries an internal `_id` and a raw IMDb id in `imdb_id` or
`imdbId`; the IMDb key is the first `tt` + (≥ 7 digits) substring.  A row
is skipped when any of its truthy keys is already queued (the persisted
set at start); an emitted row adds all its truthy keys and gets its found
`tt` id cached under `__imdb_tt`.  The optional index/id range filters
slice the resulting list (operator-supplied indices are 1-based
non-negative integers). -/

/-- A movie row as read from the movies JSON. -/
structure PRow where
  rid : Option String
  imdb_id : Option String
  imdbId : Option String
  imdbTT : Option String
deriving DecidableEq, Repr

/-- `row.get("imdb_id") or row.get("imdbId")`. -/
def imdb_raw (row : PRow) : Option String := pyOr row.imdb_id row.imdbId

/-- `re.search(r"tt\d\x7b7,\x7d", s)` at one position: `tt` followed by at
least 7 digits, taking all following digits. -/
def ttAt (l : List Char) : Option (List Char) :=
  match l with
  | c1 :: c2 :: rest =>
    if c1 = 't' ∧ c2 = 't' ∧ 7 ≤ (rest.takeWhile Char.isDigit).length then
      some ('t' :: 't' :: rest.takeWhile Char.isDigit)
    else none
  | _ => none

/-- Leftmost match of the `tt` + digits pattern. -/
def find_tt : List Char → Option (List Char)
  | [] => none
  | c :: rest =>
    match ttAt (c :: rest) with
    | some r => some r
    | none => find_tt rest

/-- The normalized IMDb key of a row (`imdb_tt` in the loop). -/
def row_tt (row : PRow) : Option (List Char) :=
  match imdb_raw row with
  | none => none
  | some s => if s = "" then none else find_tt s.data

/-- The truthy key candidates of a row (`key_candidates`, keeping only
truthy members, as both the skip test and the queueing do). -/
def row_keys (row : PRow) : List (List Char) :=
  (match row.rid with
   | some s => if s = "" then [] else [s.data]
   | none => []) ++
  (match row_tt row with
   | some tt => [tt]
   | none => [])

/-- `row_copy["__imdb_tt"] = imdb_tt` when found. -/
def cacheTT (row : PRow) : PRow :=
  match row_tt row with
  | some tt => { row with imdbTT := some (String.mk tt) }
  | none => row

/-- The deduplication pass over the candidate rows. -/
def build_rows_aux (queued : List (List Char)) : List PRow → List PRow
  | [] => []
  | row :: rest =>
    if (row_keys row).any (fun k => k ∈ queued) then build_rows_aux queued rest
    else cacheTT row :: build_rows_aux (row_keys row ++ queued) rest

/-- `resolve_movie_index`. -/
def resolve_movie_index (rows : List PRow) (movie_id : Option String) : Option ℕ :=
  match movie_id with
  | none => none
  | some mid =>
    if mid = "" then none
    else rows.findIdx? (fun r => r.rid = some mid)

/-- Embedding of `build_rows_to_process`. -/
def build_rows_to_process (items : List PRow) (processed : List (List Char))
    (start_movie_index end_movie_index : Option ℕ)
    (start_movie_id end_movie_id : Option String) : List PRow :=
  let rows := build_rows_aux processed items
  let start_idx0 : Option ℕ :=
    start_movie_index.map (fun v => (if v = 0 then 1 else v) - 1)
  let end_idx0 : Option ℕ := end_movie_index
  let hs := resolve_movie_index rows start_movie_id
  let he := resolve_movie_index rows end_movie_id
  let start_idx := match hs with | some h => some h | none => start_idx0
  let end_idx := match he with | some h => some (h + 1) | none => end_idx0
  if start_idx = none ∧ end_idx = none then rows
  else
    let s := start_idx.getD 0
    let e := end_idx.getD rows.length
    if rows.length ≤ s then [] else (rows.take e).drop s

/-- All keys of a planned row list. -/
def rows_keys (rows : List PRow) : List (List Char) :=
  (rows.map row_keys).flatten

theorem row_keys_cacheTT (row : PRow) : row_keys (cacheTT row) = row_keys row := by
  unfold cacheTT
  cases h : row_tt row with
  | none => rfl
  | some tt =>
    unfold row_keys row_tt imdb_raw
    unfold row_tt imdb_raw at h
    rfl

theorem build_rows_defaults (items : List PRow) (processed : List (List Char)) :
    build_rows_to_process items processed none none none none =
      build_rows_aux processed items := by
  unfold build_rows_to_process resolve_movie_index
  simp

theorem build_rows_aux_empty_of_covered : ∀ (items : List PRow)
    (queued : List (List Char)),
    (∀ row ∈ items, ∃ k ∈ row_keys row, k ∈ queued) →
    build_rows_aux queued items = [] := by
  intro items
  induction items with
  | nil => intro queued _; rfl
  | cons row rest ih =>
    intro queued h
    obtain ⟨k, hk, hkq⟩ := h row (List.mem_cons_self _ _)
    unfold build_rows_aux
    rw [if_pos (List.any_eq_true.mpr ⟨k, hk, by simpa using hkq⟩)]
    exact ih queued (fun r hr => h r (List.mem_cons_of_mem _ hr))

theorem build_rows_aux_coverage : ∀ (items : List PRow) (queued : List (List Char)),
    ∀ row ∈ items, row_keys row ≠ [] →
      ∃ k ∈ row_keys row, k ∈ queued ∨ k ∈ rows_keys (build_rows_aux queued items) := by
  intro items
  induction items with
  | nil => intro queued row hrow; simp at hrow
  | cons row0 rest ih =>
    intro queued row hrow hne
    unfold build_rows_aux
    by_cases hskip : (row_keys row0).any (fun k => k ∈ queued) = true
    · rw [if_pos hskip]
      rcases List.mem_cons.mp hrow with rfl | hrow
      · obtain ⟨k, hk, hkq⟩ := List.any_eq_true.mp hskip
        exact ⟨k, hk, Or.inl (by simpa using hkq)⟩
      · exact ih queued row hrow hne
    · rw [if_neg hskip]
      rcases List.mem_cons.mp hrow with rfl | hrow
      · obtain ⟨k, hk⟩ := List.exists_mem_of_ne_nil _ hne
        refine ⟨k, hk, Or.inr ?_⟩
        unfold rows_keys
        rw [List.map_cons, List.flatten_cons, List.mem_append]
        exact Or.inl (by rw [row_keys_cacheTT]; exact hk)
      · obtain ⟨k, hk, hcase⟩ := ih (row_keys row0 ++ queued) row hrow hne
        refine ⟨k, hk, ?_⟩
        rcases hcase with hq | hout
        · rcases List.mem_append.mp hq with h | h
          · refine Or.inr ?_
            unfold rows_keys
            rw [List.map_cons, List.flatten_cons, List.mem_append]
            exact Or.inl (by rw [row_keys_cacheTT]; exact h)
          · exact Or.inl h
        · refine Or.inr ?_
          unfold rows_keys
          rw [List.map_cons, List.flatten_cons, List.mem_append]
          exact Or.inr hout

/-- Second run of the stage-two planner, with the persisted set extended by
every key of the first run's emitted rows, is empty — provided every
candidate carries at least one truthy key. -/
theorem build_rows_second_run_empty (items : List PRow)
    (processed : List (List Char))
    (hkeys : ∀ row ∈ items, row_keys row ≠ []) :
    build_rows_to_process items
      (processed ++ rows_keys (build_rows_to_process items processed none none none none))
      none none none none = [] := by
  rw [build_rows_defaults, build_rows_defaults]
  apply build_rows_aux_empty_of_covered
  intro row hrow
  obtain ⟨k, hk, hcase⟩ := build_rows_aux_coverage items processed row hrow
    (hkeys row hrow)
  refine ⟨k, hk, ?_⟩
  rcases hcase with h | h
  · exact List.mem_append_left _ h
  · exact List.mem_append_right _ h

/-- **C3 counterexample** — The claim's second-run emptiness fails as
stated for the stage-two planner: a candidate row with neither an `_id` nor
an IMDb id contributes no key to the store, so a second run against the
store holding the first run's results emits it again. -/
theorem C3_planner_counterexample :
    build_rows_to_process
      [{ rid := none, imdb_id := none, imdbId := none, imdbTT := none }]
      ([] ++ rows_keys (build_rows_to_process
        [{ rid := none, imdb_id := none, imdbId := none, imdbTT := none }]
        [] none none none none))
      none none none none ≠ [] := by
  decide

/-- **C3 (amended)** — The stage-one (movies) planner emits exactly one job
per candidate whose normalized `tt` key is neither in the persisted set nor
carried by an earlier candidate (duplicate suppression within a pass), its
emitted keys are pairwise distinct and fresh, and a second run against the
store extended by the first run's keys is empty.  The stage-two (people)
planner satisfies second-run emptiness provided every candidate row carries
at least one identifier; the counterexample shows identifier-less rows are
re-emitted on every run. -/
theorem C3_planner_amended (records : List PyVal) (existing : List (List Char))
    (items : List PRow) (processed : List (List Char))
    (hkeys : ∀ row ∈ items, row_keys row ≠ []) :
    (plan_keys (plan_movies records existing)).Nodup ∧
    (∀ j ∈ plan_movies records existing, tt_id_string j.2 ∉ existing) ∧
    (∀ j : ℕ × ℤ, j ∈ plan_movies records existing ↔
      ∃ p r, records.get? p = some r ∧ j.1 = p + 1 ∧
        parse_imdb_numeric r = some j.2 ∧
        tt_id_string j.2 ∉ existing ∧
        (∀ q rq nq, q < p → records.get? q = some rq →
          parse_imdb_numeric rq = some nq →
          tt_id_string nq ≠ tt_id_string j.2)) ∧
    plan_movies records (existing ++ plan_keys (plan_movies records existing)) = [] ∧
    build_rows_to_process items
      (processed ++ rows_keys (build_rows_to_process items processed none none none none))
      none none none none = [] :=
  ⟨plan_aux_keys_nodup records existing [] 1,
    fun j hj => (plan_aux_keys_avoid records existing [] 1 j hj).1,
    fun j => plan_movies_char records existing j,
    plan_movies_second_run_empty records existing,
    build_rows_second_run_empty items processed hkeys⟩

/-- Witness for C3 (amended): one fresh movie candidate and one keyed movie
row; both second runs come back empty. -/
theorem C3_planner_witness :
    plan_movies [PyVal.vStr "tt0000123"]
      ([] ++ plan_keys (plan_movies [PyVal.vStr "tt0000123"] [])) = [] ∧
    build_rows_to_process
      [{ rid := some "ms000000000001", imdb_id := none, imdbId := none, imdbTT := none }]
      ([] ++ rows_keys (build_rows_to_process
        [{ rid := some "ms000000000001", imdb_id := none, imdbId := none, imdbTT := none }]
        [] none none none none))
      none none none none = [] := by
  have h := C3_planner_amended [PyVal.vStr "tt0000123"] []
    [{ rid := some "ms000000000001", imdb_id := none, imdbId := none, imdbTT := none }]
    [] (by decide)
  exact ⟨h.2.2.2.1, h.2.2.2.2⟩

/-! ## Count normalization (`parse_count`, movies_series_functions.py
lines 69–95)

`parse_count` strips the text, removes commas, uppercases, then matches
`^(\d+(?:\.\d+)?)([KM]?)$` and falls back to searching the same pattern
anywhere; the numeric value (scaled by K/M) is truncated with `int()`.
The float arithmetic is modelled exactly (integer arithmetic on the
digit strings); `int(value)` on the non-negative value is floor. -/

/-- Match `(\d+(?:\.\d+)?)([KM]?)` at the head of the text, returning the
truncated scaled value and the unconsumed rest. -/
def countToken (l : List Char) : Option (ℕ × List Char) :=
  let ds := l.takeWhile Char.isDigit
  if ds = [] then none
  else
    let rest1 := l.drop ds.length
    let fr : List Char × List Char :=
      match rest1 with
      | '.' :: r2 =>
        let f := r2.takeWhile Char.isDigit
        if f = [] then ([], rest1) else (f, r2.drop f.length)
      | _ => ([], rest1)
    let mr : ℕ × List Char :=
      match fr.2 with
      | 'M' :: r3 => (1000000, r3)
      | 'K' :: r3 => (1000, r3)
      | _ => (1, fr.2)
    some (((charsVal ds * 10 ^ fr.1.length + charsVal fr.1) * mr.1) / 10 ^ fr.1.length,
      mr.2)

/-- The anchored `re.match(^…$)` attempt. -/
def count_full_match (text : List Char) : Option ℕ :=
  match countToken text with
  | some (v, []) => some v
  | _ => none

/-- The `re.search` fallback: leftmost position where the pattern (which
starts with a digit) matches. -/
def count_search : List Char → Option ℕ
  | [] => none
  | c :: rest =>
    match countToken (c :: rest) with
    | some (v, _) => some v
    | none => count_search rest

/-- Embedding of `parse_count`. -/
def parse_count (s : String) : Option ℕ :=
  if s.data = [] then none
  else
    let text := ((stripChars s.data).filter (fun c => ¬ c = ',')).map Char.toUpper
    match count_full_match text with
    | some v => some v
    | none => count_search text

/-! ## Date normalization (`parse_date_any`, movies_series_functions.py
lines 10–66)

`parse_date_any` strips, truncates at `"T"`, and tries
`datetime.strptime` with the formats of `DATE_FMTS` in order.  The
`strptime` subset is embedded token by token with CPython's regexes
(`%Y` = exactly four digits; `%m`, `%d` = `1[0-2]|0[1-9]|[1-9]` resp.
`3[01]|[12]\d|0[1-9]|[1-9]`; `%B`/`%b` = case-insensitive month names; a
space = one or more whitespace; the whole string must be consumed) plus
`datetime`'s calendar validation.  The ISO string / day / month outputs
are gated on the **substring** tests `"%d" in fmt` and `"%m" in fmt`
exactly as in the source — note `"%B %d, %Y"` does not contain `"%m"`.
A final regex fallback catches `MonthName yyyy`. -/

/-- Date-format tokens. -/
inductive DTok
  | lit : Char → DTok
  | ws : DTok
  | y4 : DTok
  | m2 : DTok
  | d2 : DTok
  | bFull : DTok
  | bAbbr : DTok
deriving DecidableEq, Repr

/-- Full month names with their numbers (lower-cased for the
case-insensitive match). -/
def monthNamesFull : List (List Char × ℕ) :=
  [("january".data, 1), ("february".data, 2), ("march".data, 3),
   ("april".data, 4), ("may".data, 5), ("june".data, 6),
   ("july".data, 7), ("august".data, 8), ("september".data, 9),
   ("october".data, 10), ("november".data, 11), ("december".data, 12)]

/-- Abbreviated month names with their numbers. -/
def monthNamesAbbr : List (List Char × ℕ) :=
  [("jan".data, 1), ("feb".data, 2), ("mar".data, 3), ("apr".data, 4),
   ("may".data, 5), ("jun".data, 6), ("jul".data, 7), ("aug".data, 8),
   ("sep".data, 9), ("oct".data, 10), ("nov".data, 11), ("dec".data, 12)]

/-- Case-insensitive month-name alternation at the head of the text. -/
def monthAt (names : List (List Char × ℕ)) (l : List Char) : Option (ℕ × List Char) :=
  match names with
  | [] => none
  | (name, num) :: rest =>
    if (l.take name.length).map Char.toLower = name then
      some (num, l.drop name.length)
    else monthAt rest l

/-- `\d\d\d\d`. -/
def fourDigitsAt (l : List Char) : Option (ℕ × List Char) :=
  match l with
  | a :: b :: c :: d :: rest =>
    if a.isDigit ∧ b.isDigit ∧ c.isDigit ∧ d.isDigit then
      some (charsVal [a, b, c, d], rest)
    else none
  | _ => none

/-- `1[0-2]|0[1-9]|[1-9]` (CPython's `%m`). -/
def monthNumAt (l : List Char) : Option (ℕ × List Char) :=
  match l with
  | a :: b :: rest =>
    if a = '1' ∧ '0' ≤ b ∧ b ≤ '2' then some (10 + charDigitVal b, rest)
    else if a = '0' ∧ '1' ≤ b ∧ b ≤ '9' then some (charDigitVal b, rest)
    else if '1' ≤ a ∧ a ≤ '9' then some (charDigitVal a, b :: rest)
    else none
  | [a] => if '1' ≤ a ∧ a ≤ '9' then some (charDigitVal a, []) else none
  | [] => none

/-- `3[01]|[12]\d|0[1-9]|[1-9]` (CPython's `%d`). -/
def dayNumAt (l : List Char) : Option (ℕ × List Char) :=
  match l with
  | a :: b :: rest =>
    if a = '3' ∧ ('0' ≤ b ∧ b ≤ '1') then some (30 + charDigitVal b, rest)
    else if ('1' ≤ a ∧ a ≤ '2') ∧ b.isDigit then
      some (10 * charDigitVal a + charDigitVal b, rest)
    else if a = '0' ∧ '1' ≤ b ∧ b ≤ '9' then some (charDigitVal b, rest)
    else if '1' ≤ a ∧ a ≤ '9' then some (charDigitVal a, b :: rest)
    else none
  | [a] => if '1' ≤ a ∧ a ≤ '9' then some (charDigitVal a, []) else none
  | [] => none

/-- Run one format token against the text, updating the (year, month,
day) state (strptime defaults: 1900-01-01). -/
def runDTok (t : DTok) (st : ℕ × ℕ × ℕ) (l : List Char) :
    Option ((ℕ × ℕ × ℕ) × List Char) :=
  match t with
  | .lit c => match l with
    | c2 :: rest => if c2 = c then some (st, rest) else none
    | [] => none
  | .ws =>
    if (l.takeWhile isPyWS).length = 0 then none
    else some (st, l.dropWhile isPyWS)
  | .y4 => (fourDigitsAt l).map (fun p => ((p.1, st.2.1, st.2.2), p.2))
  | .m2 => (monthNumAt l).map (fun p => ((st.1, p.1, st.2.2), p.2))
  | .d2 => (dayNumAt l).map (fun p => ((st.1, st.2.1, p.1), p.2))
  | .bFull => (monthAt monthNamesFull l).map (fun p => ((st.1, p.1, st.2.2), p.2))
  | .bAbbr => (monthAt monthNamesAbbr l).map (fun p => ((st.1, p.1, st.2.2), p.2))

/-- Run a whole format; the match must consume the entire text. -/
def runDToks : List DTok → (ℕ × ℕ × ℕ) → List Char → Option (ℕ × ℕ × ℕ)
  | [], st, l => if l = [] then some st else none
  | t :: ts, st, l =>
    match runDTok t st l with
    | some (st2, rest) => runDToks ts st2 rest
    | none => none

/-- Gregorian leap year, as `datetime` uses. -/
def isLeap (y : ℕ) : Bool := y % 4 = 0 ∧ (¬ y % 100 = 0 ∨ y % 400 = 0)

/-- Days in a month. -/
def daysInMonth (y m : ℕ) : ℕ :=
  if m = 1 ∨ m = 3 ∨ m = 5 ∨ m = 7 ∨ m = 8 ∨ m = 10 ∨ m = 12 then 31
  else if m = 4 ∨ m = 6 ∨ m = 9 ∨ m = 11 then 30
  else if isLeap y then 29 else 28

/-- `datetime(year, month, day)` construction: calendar validation. -/
def validDate (st : ℕ × ℕ × ℕ) : Bool :=
  1 ≤ st.1 ∧ st.1 ≤ 9999 ∧ 1 ≤ st.2.1 ∧ st.2.1 ≤ 12 ∧
    1 ≤ st.2.2 ∧ st.2.2 ≤ daysInMonth st.1 st.2.1

/-- Zero-padded decimal rendering of width `w`. -/
def padNum (w n : ℕ) : List Char :=
  List.replicate (w - (decChars n).length) '0' ++ decChars n

/-- One entry of `DATE_FMTS`: its token list and the two substring tests
`"%d" in fmt` / `"%m" in fmt` evaluated on the literal format string. -/
structure DateFmt where
  toks : List DTok
  hasD : Bool
  hasM : Bool

/-- The `DATE_FMTS` table.  The `hasD`/`hasM` flags are the values of
`"%d" in fmt` and `"%m" in fmt`: only `"%Y-%m-%d"` and `"%Y-%m"` contain
the literal substring `"%m"` — `"%B %d, %Y"` and friends do not. -/
def DATE_FMTS : List DateFmt :=
  [⟨[.y4, .lit '-', .m2, .lit '-', .d2], true, true⟩,
   ⟨[.bFull, .ws, .d2, .lit ',', .ws, .y4], true, false⟩,
   ⟨[.d2, .ws, .bFull, .ws, .y4], true, false⟩,
   ⟨[.bAbbr, .ws, .d2, .lit ',', .ws, .y4], true, false⟩,
   ⟨[.d2, .ws, .bAbbr, .ws, .y4], true, false⟩,
   ⟨[.y4, .lit '-', .m2], false, true⟩,
   ⟨[.y4], false, false⟩]

/-- Result of one successful `strptime` + the format-dependent outputs. -/
def dateResult (f : DateFmt) (st : ℕ × ℕ × ℕ) :
    Option (List Char) × Option ℕ × Option ℕ :=
  (some (if f.hasD then padNum 4 st.1 ++ '-' :: padNum 2 st.2.1 ++ '-' :: padNum 2 st.2.2
    else if f.hasM then padNum 4 st.1 ++ '-' :: padNum 2 st.2.1
    else padNum 4 st.1),
   if f.hasD then some st.2.2 else none,
   if f.hasM then some st.2.1 else none)

/-- Try the formats in order. -/
def tryFormats : List DateFmt → List Char → Option (Option (List Char) × Option ℕ × Option ℕ)
  | [], _ => none
  | f :: fs, l =>
    match runDToks f.toks (1900, 1, 1) l with
    | some st => if validDate st then some (dateResult f st) else tryFormats fs l
    | none => tryFormats fs l

/-- The fallback `re.search((January|…|December)\s+(\d\x7b4\x7d), re.I)`
at one position: month name, whitespace, four digits (kept verbatim). -/
def monthYearAt (l : List Char) : Option (ℕ × List Char) :=
  match monthAt monthNamesFull l with
  | none => none
  | some (num, rest) =>
    if (rest.takeWhile isPyWS).length = 0 then none
    else
      let rest2 := rest.dropWhile isPyWS
      match rest2 with
      | a :: b :: c :: d :: _ =>
        if a.isDigit ∧ b.isDigit ∧ c.isDigit ∧ d.isDigit then
          some (num, [a, b, c, d])
        else none
      | _ => none

/-- Leftmost match of the fallback pattern. -/
def searchMonthYear : List Char → Option (ℕ × List Char)
  | [] => none
  | c :: rest =>
    match monthYearAt (c :: rest) with
    | some r => some r
    | none => searchMonthYear rest

/-- Embedding of `parse_date_any`: returns (ISO string, day, month). -/
def parse_date_any (s : String) : Option (List Char) × Option ℕ × Option ℕ :=
  if s.data = [] then (none, none, none)
  else
    let date_str := (stripChars s.data).takeWhile (fun c => ¬ c = 'T')
    match tryFormats DATE_FMTS date_str with
    | some r => r
    | none =>
      match searchMonthYear date_str with
      | some (m, ychars) => (some (ychars ++ '-' :: padNum 2 m), none, some m)
      | none => (none, none, none)

/-- **C7** — Evaluation of the normalizers at the claim's inputs.
`parse_count` maps `"1.5M"` to `1500000` and `"2,345"` to `2345` as
claimed, and `"1993"` yields `("1993", day=None, month=None)` as claimed;
but `"December 15, 1993"` yields `("1993-12-15", day=15, month=None)` —
the month is `None`, not `12`, because the code gates the month output on
the substring test `"%m" in fmt` and the matching format `"%B %d, %Y"`
contains `%B`, not `%m`.  This contradicts the function's own ISO output
(which does contain the month) and its fallback branch (which does return
the month), so the code, not the claim, is at fault. -/
theorem C7_normalizers_eval :
    parse_count "1.5M" = some 1500000 ∧
    parse_count "2,345" = some 2345 ∧
    parse_date_any "December 15, 1993" = (some "1993-12-15".data, some 15, none) ∧
    parse_date_any "1993" = (some "1993".data, none, none) := by
  refine ⟨by decide, by decide, by decide, by decide⟩

/-! ## Politeness scheduler (`polite_request_pause`,
movies_series_functions.py lines 190–212 and people_functions.py lines
39–61)

Each call takes the lock to read `last_request_ts` and sample
`min_delay ∈ REQUEST_DELAY_RANGE = (1.5, 3.0)`, releases it, sleeps the
residual `max(0, min_delay - (now - last))`, then re-takes the lock to
stamp `last_request_ts = perf_counter()` and bump `request_counter`; every
40th bump schedules the long cooldown, slept after the lock is released.
An execution is a time-ordered list of the two lock-protected atomic
sections (`read` computes the wait, `stamp` reserves the slot); the sleep
between them only constrains the stamp to happen at least `wait` after its
read.  Between one thread's read and its stamp other threads may
interleave — exactly the race the model exposes. -/

/-- One lock-protected atomic section: `read tid t d` is the first block
(at time `t`, sampling `min_delay = d`); `stamp tid t` is the second. -/
inductive SchedEvent
  | read : ℕ → ℚ → ℚ → SchedEvent
  | stamp : ℕ → ℚ → SchedEvent
deriving DecidableEq, Repr

/-- Global scheduler state threaded through an execution. -/
structure SchedSt where
  last : ℚ
  counter : ℕ
  prevTime : ℚ
  pending : List (ℕ × ℚ)
  stamps : List (ℚ × Bool)
  finished : List ℕ
deriving DecidableEq, Repr

/-- The initial state: `last_request_ts = 0.0`, `request_counter = 0`. -/
def schedInit : SchedSt :=
  { last := 0, counter := 0, prevTime := 0, pending := [], stamps := [], finished := [] }

/-- Validity and effect of one atomic section.  A `read` must occur at a
fresh later time with `min_delay` in the configured range, by a thread
not already inside a call; it records the earliest admissible stamp time
`t + max 0 (d - (t - last))`.  A `stamp` must occur after the thread's
sleep has elapsed; it sets `last`, bumps the counter and records whether
this reservation triggers the every-40th cooldown. -/
def schedStep (st : SchedSt) (e : SchedEvent) : Option SchedSt :=
  match e with
  | .read tid t d =>
    if st.prevTime < t ∧ (3/2 : ℚ) ≤ d ∧ d ≤ 3 ∧
        st.pending.all (fun p => ¬ p.1 = tid) = true ∧ tid ∉ st.finished then
      some { st with
        prevTime := t
        pending := (tid, t + max 0 (d - (t - st.last))) :: st.pending }
    else none
  | .stamp tid t =>
    match st.pending.find? (fun p => p.1 = tid) with
    | none => none
    | some p =>
      if st.prevTime < t ∧ p.2 ≤ t then
        some
          { last := t
            counter := st.counter + 1
            prevTime := t
            pending := st.pending.filter (fun q => ¬ q.1 = tid)
            stamps := st.stamps ++ [(t, (st.counter + 1) % 40 == 0)]
            finished := tid :: st.finished }
      else none

/-- Run an execution from a state. -/
def runSchedAux : List SchedEvent → SchedSt → Option SchedSt
  | [], st => some st
  | e :: es, st =>
    match schedStep st e with
    | some st2 => runSchedAux es st2
    | none => none

/-- Run an execution from the initial state. -/
def runSched (es : List SchedEvent) : Option SchedSt :=
  runSchedAux es schedInit

/-- The reservation times, in order. -/
def stampTimes (st : SchedSt) : List ℚ := st.stamps.map Prod.fst

/-- Consecutive reservations at least `dmin` apart. -/
def gapsAtLeast (dmin : ℚ) (times : List ℚ) : Prop :=
  List.Chain' (fun a b => a + dmin ≤ b) times

/-- A sequence of non-overlapping calls `(tid, read time, delay, stamp
time)`, each call's two atomic sections adjacent. -/
def seqEvents (calls : List (ℕ × ℚ × ℚ × ℚ)) : List SchedEvent :=
  (calls.map (fun c => [SchedEvent.read c.1 c.2.1 c.2.2.1,
    SchedEvent.stamp c.1 c.2.2.2])).flatten

/-- **C5 counterexample** — the minimum-gap property fails under
concurrency as the code stands: two threads both read
`last_request_ts = 0` before either stamps (times 100 and 101, sampled
delays 2 s each), so both compute a zero residual wait and their
reservations land at 102 and 103 — only 1 s apart, below the configured
1.5 s minimum. -/
theorem C5_scheduler_counterexample :
    ∃ st, runSched [SchedEvent.read 0 100 2, SchedEvent.read 1 101 2,
        SchedEvent.stamp 0 102, SchedEvent.stamp 1 103] = some st ∧
      ¬ gapsAtLeast (3/2) (stampTimes st) := by
  refine ⟨{ last := 103
            counter := 2
            prevTime := 103
            pending := []
            stamps := [(102, false), (103, false)]
            finished := [1, 0] }, ?_, ?_⟩
  · norm_num [runSched, runSchedAux, schedStep, schedInit]
  · unfold gapsAtLeast stampTimes
    simp only [List.map_cons, List.map_nil, List.chain'_cons]
    intro h
    have := h.1
    norm_num at this

theorem sched_flags_invariant : ∀ (es : List SchedEvent) (st0 st : SchedSt),
    runSchedAux es st0 = some st →
    st0.stamps.length = st0.counter →
    st0.stamps.map Prod.snd =
      (List.range st0.stamps.length).map (fun i => ((i + 1) % 40 == 0)) →
    st.stamps.length = st.counter ∧
      st.stamps.map Prod.snd =
        (List.range st.stamps.length).map (fun i => ((i + 1) % 40 == 0)) := by
  intro es
  induction es with
  | nil =>
    intro st0 st h hlen hflags
    cases h
    exact ⟨hlen, hflags⟩
  | cons e es ih =>
    intro st0 st h hlen hflags
    cases e with
    | read tid t d =>
      simp only [runSchedAux, schedStep] at h
      split_ifs at h with hc
      · exact ih _ st h hlen hflags
    | stamp tid t =>
      simp only [runSchedAux, schedStep] at h
      cases hfind : st0.pending.find? (fun p => p.1 = tid) with
      | none =>
        simp only [hfind] at h
        exact Option.noConfusion h
      | some p =>
        simp only [hfind] at h
        split_ifs at h with hc
        · refine ih _ st h ?_ ?_
          · simp only [List.length_append, List.length_singleton]
            omega
          · simp only [List.map_append, List.map_cons, List.map_nil,
              List.length_append, List.length_singleton]
            rw [List.range_succ, List.map_append, hflags, hlen]
            rfl

theorem seq_gaps_invariant : ∀ (calls : List (ℕ × ℚ × ℚ × ℚ)) (st0 st : SchedSt),
    runSchedAux (seqEvents calls) st0 = some st →
    st0.pending = [] →
    gapsAtLeast (3/2) (stampTimes st0) →
    (∀ x ∈ (stampTimes st0).getLast?, x ≤ st0.last) →
    gapsAtLeast (3/2) (stampTimes st) := by
  intro calls
  induction calls with
  | nil =>
    intro st0 st h _ hgaps _
    cases h
    exact hgaps
  | cons c calls ih =>
    intro st0 st h hpend hgaps hlast
    obtain ⟨tid, t, d, s⟩ := c
    have hseq : seqEvents ((tid, t, d, s) :: calls) =
        SchedEvent.read tid t d :: SchedEvent.stamp tid s :: seqEvents calls := by
      simp [seqEvents]
    rw [hseq] at h
    simp only [runSchedAux, schedStep, hpend] at h
    split_ifs at h with hc1
    · set w := max 0 (d - (t - st0.last)) with hw
      have hfind : List.find? (fun p => p.1 = tid) [(tid, t + w)] = some (tid, t + w) := by
        simp [List.find?]
      simp only [List.all_nil, hfind] at h
      split_ifs at h with hc2
      · unfold gapsAtLeast stampTimes at hgaps
        unfold stampTimes at hlast
        refine ih _ st h (by simp) ?_ ?_
        · show List.Chain' (fun a b => a + 3/2 ≤ b)
            ((st0.stamps ++ [(s, (st0.counter + 1) % 40 == 0)]).map Prod.fst)
          rw [List.map_append, List.chain'_append]
          refine ⟨hgaps, List.chain'_singleton _, ?_⟩
          intro x hx y hy
          simp only [List.map_cons, List.map_nil, List.head?_cons,
            Option.mem_def, Option.some.injEq] at hy
          subst hy
          have hxle : x ≤ st0.last := hlast x hx
          have hs : st0.last + d ≤ t + w := by
            have : d - (t - st0.last) ≤ w := le_max_right _ _
            linarith
          have hd : (3/2 : ℚ) ≤ d := hc1.2.1
          have : t + w ≤ s := hc2.2
          linarith
        · intro x hx
          show x ≤ s
          unfold stampTimes at hx
          simp only [List.map_append, List.map_cons, List.map_nil,
            List.getLast?_append, List.getLast?_singleton, Option.or_some,
            Option.mem_def, Option.some.injEq] at hx
          subst hx
          exact le_rfl

/-- **C5 (amended)** — In every valid execution the long cooldown is
triggered after exactly every 40th reservation (the counter is protected
by the lock, so this holds even under concurrency; the code sleeps it
after releasing the lock).  The minimum-spacing guarantee, however, holds
only for non-overlapping calls: when calls do not interleave, consecutive
reservations are at least the sampled minimum delay (≥ 1.5 s) apart — the
counterexample shows interleaved callers can reserve closer than that,
because both read `last_request_ts` before either stamps it. -/
theorem C5_scheduler_amended (es : List SchedEvent) (calls : List (ℕ × ℚ × ℚ × ℚ))
    (st st2 : SchedSt) (h1 : runSched es = some st)
    (h2 : runSched (seqEvents calls) = some st2) :
    st.stamps.length = st.counter ∧
    st.stamps.map Prod.snd =
      (List.range st.stamps.length).map (fun i => ((i + 1) % 40 == 0)) ∧
    gapsAtLeast (3/2) (stampTimes st2) := by
  have hflags := sched_flags_invariant es schedInit st h1 rfl rfl
  have hgaps := seq_gaps_invariant calls schedInit st2 h2 rfl
    (by unfold gapsAtLeast stampTimes schedInit; simp)
    (by intro x hx; simp [stampTimes, schedInit] at hx)
  exact ⟨hflags.1, hflags.2, hgaps⟩

/-- Witness for C5 (amended): a single completed call (read at 100 with
delay 2, reservation at 102) — no cooldown on the first reservation and
the gap condition holds trivially. -/
theorem C5_scheduler_witness :
    gapsAtLeast (3/2) (stampTimes
      { last := 102
        counter := 1
        prevTime := 102
        pending := []
        stamps := [(102, false)]
        finished := [0] }) := by
  have h := C5_scheduler_amended [SchedEvent.read 0 100 2, SchedEvent.stamp 0 102]
    [(0, 100, 2, 102)]
    { last := 102
      counter := 1
      prevTime := 102
      pending := []
      stamps := [(102, false)]
      finished := [0] }
    { last := 102
      counter := 1
      prevTime := 102
      pending := []
      stamps := [(102, false)]
      finished := [0] }
    (by norm_num [runSched, runSchedAux, schedStep, schedInit])
    (by norm_num [seqEvents, runSched, runSchedAux, schedStep, schedInit])
  exact h.2.2

end NosqlPipeline
